import Mathlib

/-!
# Chronos English-History Explorer — verification of the content/annotation core

Shallow embedding of the repository's content-retrieval-and-caching layer and
its rich-text annotation pipeline:

* the annotation scanner `renderRichText` (bracket pass splitting on the JS
  regex `/(\[\[.*?\]\])/g`, then a date pass splitting plain parts on the
  year/century regex) from the article renderer component;
* the cache layer `getCacheKey` / `saveToCache` / `getFromCache` and the three
  fetch orchestrations (`generateHistoryArticle`, `generateSearchArticle`,
  `generateHistoricalIllustration`) from the service module;
* the selection/effect race-guard (`isMounted`) of the application component.

Strings are modelled as `List Char`; the scanners are written to mirror the
exact backtracking behaviour of the JS regexes used by the source.
-/

set_option maxRecDepth 8000

namespace Chronos

/-! ## Character classes of the JS regexes -/

/-- JS `\d`, i.e. `[0-9]`. -/
def isDigitC (c : Char) : Bool := decide ('0' ≤ c ∧ c ≤ '9')

/-- JS word character (for `\b`), i.e. `[A-Za-z0-9_]`. -/
def isWordC (c : Char) : Bool :=
  decide (('a' ≤ c ∧ c ≤ 'z') ∨ ('A' ≤ c ∧ c ≤ 'Z')) || isDigitC c || c == '_'

/-- JS `\s` restricted to the ASCII whitespace characters. -/
def isSpaceC (c : Char) : Bool :=
  c == ' ' || c == '\t' || c == '\n' || c == '\r' || c == '\x0b' || c == '\x0c'

/-! ## Annotation spans

The output unit of the scanner: the renderer emits, for each part, either a
glossary button (`ref`, carrying the literal bracket contents and the resolved
definition), a date chip (`date`, carrying the exact matched substring), or a
plain text span (`text`). -/

inductive Span where
  | text (cs : List Char)
  | ref (term definition : List Char)
  | date (cs : List Char)
deriving DecidableEq, Repr

/-- The literal source text a span stands for: bracket contents for glossary
refs, the matched substring for date markers, the raw text for plain spans. -/
def Span.literal : Span → List Char
  | .text cs => cs
  | .ref t _ => t
  | .date cs => cs

/-- Extract the term of a glossary-ref span, if the span is one. -/
def Span.refTerm : Span → Option (List Char)
  | .ref t _ => some t
  | _ => none

/-! ## Bracket pass: `text.split(/(\[\[.*?\]\])/g)`

The lazy `.*?` (with `.` not matching a line terminator) means: after a `[[`,
the match ends at the first following `]]`, provided no line terminator
intervenes; if there is no such terminator the engine moves on one position. -/

/-- The four ECMAScript line terminators, the characters `.` (without the `s`
flag) does not match: LF, CR, LINE SEPARATOR (U+2028) and PARAGRAPH SEPARATOR
(U+2029). -/
def isLineTerm (c : Char) : Bool :=
  c == '\n' || c == '\r' || c == '\u2028' || c == '\u2029'

/-- After an opening `[[`: find the lazily-first `]]` terminator, returning the
inner text and the remainder; `none` when a line terminator or the end of input
is hit first (JS `.` matches neither LF, CR, U+2028 nor U+2029). -/
def findTerm : List Char → Option (List Char × List Char)
  | ']' :: ']' :: rest => some ([], rest)
  | c :: rest =>
      if isLineTerm c then none
      else (findTerm rest).map (fun p => (c :: p.1, p.2))
  | [] => none

theorem findTerm_append : ∀ (cs : List Char) {i r},
    findTerm cs = some (i, r) → cs = i ++ ']' :: ']' :: r := by
  intro cs
  induction cs using findTerm.induct with
  | case1 rest => intro i r h; simp [findTerm] at h; simp [h.1, h.2]
  | case2 c rest hne hlt =>
      intro i r h
      rw [findTerm] at h
      · rw [if_pos hlt] at h
        simp at h
      · exact hne
  | case3 c rest hne hnl ih =>
      intro i r h
      rw [findTerm] at h
      · simp only [if_neg hnl, Option.map_eq_some'] at h
        obtain ⟨⟨i', r'⟩, hfi, hpr⟩ := h
        cases hpr
        simpa using ih hfi
      · exact hne
  | case4 => intro i r h; simp [findTerm] at h

/-- `true` iff the text contains an occurrence of `[[`. -/
def hasBB : List Char → Bool
  | [] => false
  | c :: rest => (c == '[' && rest.head? == some '[') || hasBB rest

/-- `true` iff the text contains an occurrence of `]]`. -/
def hasEE : List Char → Bool
  | [] => false
  | c :: rest => (c == ']' && rest.head? == some ']') || hasEE rest

theorem findTerm_cons (c : Char) (cs : List Char)
    (hne : c ≠ ']' ∨ cs.head? ≠ some ']') (hnl : isLineTerm c = false) :
    findTerm (c :: cs) = (findTerm cs).map (fun p => (c :: p.1, p.2)) := by
  rw [findTerm]
  · simp [hnl]
  · intro rest h1 h2
    rcases hne with h | h
    · exact h h1
    · exact h (by simp [h2])

theorem findTerm_none : ∀ (cs : List Char), hasEE cs = false → findTerm cs = none := by
  intro cs
  induction cs using findTerm.induct with
  | case1 rest => intro h; simp [hasEE] at h
  | case2 c rest hne hlt =>
      intro h
      rw [findTerm]
      · rw [if_pos hlt]
      · exact hne
  | case3 c rest hne hnl ih =>
      intro h
      simp only [hasEE, Bool.or_eq_false_iff] at h
      rw [findTerm_cons c rest _ (Bool.eq_false_iff.mpr hnl), ih h.2]
      · rfl
      · by_cases hc : c = ']'
        · right
          intro hh
          simp [hc, hh] at h
        · exact Or.inl hc
  | case4 => intro h; simp [findTerm]

theorem findTerm_ok : ∀ (t : List Char), hasEE t = false →
    (∀ c ∈ t, isLineTerm c = false) →
    t.getLast? ≠ some ']' →
    ∀ r, findTerm (t ++ ']' :: ']' :: r) = some (t, r) := by
  intro t
  induction t with
  | nil => intro _ _ _ r; simp [findTerm]
  | cons c t ih =>
      intro hEE hnl hlast r
      have hc_ne_nl : isLineTerm c = false := hnl c (by simp)
      cases t with
      | nil =>
          have hc : c ≠ ']' := by
            intro h; exact hlast (by simp [h])
          simp only [List.cons_append, List.nil_append]
          rw [findTerm_cons c _ (Or.inl hc) hc_ne_nl]
          simp [findTerm]
      | cons d t' =>
          have hne : c ≠ ']' ∨ (d :: t' ++ ']' :: ']' :: r).head? ≠ some ']' := by
            by_cases hc : c = ']'
            · right
              intro hh
              simp only [List.cons_append, List.head?_cons, Option.some.injEq] at hh
              simp [hasEE, hc, hh] at hEE
            · exact Or.inl hc
          rw [List.cons_append, findTerm_cons c _ hne hc_ne_nl]
          have hEE' : hasEE (d :: t') = false := by
            rw [hasEE, Bool.or_eq_false_iff] at hEE
            exact hEE.2
          have hnl' : ∀ x ∈ d :: t', isLineTerm x = false :=
            fun x hx => hnl x (List.mem_cons_of_mem _ hx)
          have hlast' : (d :: t').getLast? ≠ some ']' := by
            intro h
            apply hlast
            rw [List.getLast?_cons_cons]
            exact h
          rw [ih hEE' hnl' hlast' r]
          rfl

/-- The bracket pass: locate the leftmost complete `[[…]]` match (lazy inner,
no newline), returning (text before, inner term, text after). -/
def findMatch : List Char → Option (List Char × List Char × List Char)
  | '[' :: '[' :: rest =>
      match findTerm rest with
      | some (i, r) => some ([], i, r)
      | none => (findMatch ('[' :: rest)).map (fun p => ('[' :: p.1, p.2))
  | c :: rest => (findMatch rest).map (fun p => (c :: p.1, p.2))
  | [] => none
termination_by cs => cs.length
decreasing_by all_goals (simp only [List.length_cons]; omega)

theorem findMatch_cons (c : Char) (cs : List Char)
    (hne : c ≠ '[' ∨ cs.head? ≠ some '[') :
    findMatch (c :: cs) = (findMatch cs).map (fun p => (c :: p.1, p.2)) := by
  rw [findMatch]
  · intro rest h1 h2
    rcases hne with h | h
    · exact h h1
    · exact h (by simp [h2])

theorem findMatch_bb (rest : List Char) :
    findMatch ('[' :: '[' :: rest) =
      match findTerm rest with
      | some (i, r) => some ([], i, r)
      | none => (findMatch ('[' :: rest)).map (fun p => ('[' :: p.1, p.2)) := by
  rw [findMatch]

theorem findMatch_append : ∀ (cs : List Char) {p i r},
    findMatch cs = some (p, i, r) →
    cs = p ++ '[' :: '[' :: (i ++ ']' :: ']' :: r) := by
  intro cs
  induction cs using findMatch.induct with
  | case1 rest i' r' hft =>
      intro p i r h
      rw [findMatch_bb, hft] at h
      simp only [Option.some.injEq, Prod.mk.injEq] at h
      obtain ⟨h1, h2, h3⟩ := h
      subst h1; subst h2; subst h3
      simpa using findTerm_append rest hft
  | case2 rest hft ih =>
      intro p i r h
      rw [findMatch_bb, hft] at h
      simp only [Option.map_eq_some'] at h
      obtain ⟨⟨p', i', r'⟩, hfm, hpr⟩ := h
      cases hpr
      have := ih hfm
      simp only [List.cons_append] at this ⊢
      rw [← this]
  | case3 c rest hne ih =>
      intro p i r h
      rw [findMatch_cons c rest] at h
      · simp only [Option.map_eq_some'] at h
        obtain ⟨⟨p', i', r'⟩, hfm, hpr⟩ := h
        cases hpr
        have := ih hfm
        simp only [List.cons_append]
        rw [← this]
      · by_cases hc : c = '['
        · right
          intro hh
          rcases rest with _ | ⟨d, rest⟩
          · simp at hh
          · simp only [List.head?_cons, Option.some.injEq] at hh
            exact hne rest hc (by rw [hh])
        · exact Or.inl hc
  | case4 => intro p i r h; simp [findMatch] at h

theorem findMatch_none_of_noBB : ∀ (cs : List Char), hasBB cs = false →
    findMatch cs = none := by
  intro cs
  induction cs using findMatch.induct with
  | case1 rest i' r' hft => intro h; simp [hasBB] at h
  | case2 rest hft ih => intro h; simp [hasBB] at h
  | case3 c rest hne ih =>
      intro h
      rw [hasBB, Bool.or_eq_false_iff] at h
      rw [findMatch_cons c rest, ih h.2]
      · rfl
      · by_cases hc : c = '['
        · right
          intro hh
          simp [hc, hh] at h
        · exact Or.inl hc
  | case4 => intro h; simp [findMatch]

theorem findMatch_none_of_noEE : ∀ (cs : List Char), hasEE cs = false →
    findMatch cs = none := by
  intro cs
  induction cs using findMatch.induct with
  | case1 rest i' r' hft =>
      intro h
      rw [hasEE, Bool.or_eq_false_iff] at h
      rw [findTerm_none rest h.2] at hft
      exact absurd hft (by simp)
  | case2 rest hft ih =>
      intro h
      rw [hasEE, Bool.or_eq_false_iff] at h
      rw [findMatch_bb, hft, ih h.2]
      rfl
  | case3 c rest hne ih =>
      intro h
      rw [hasEE, Bool.or_eq_false_iff] at h
      rw [findMatch_cons c rest, ih h.2]
      · rfl
      · by_cases hc : c = '['
        · right
          intro hh
          rcases rest with _ | ⟨d, rest⟩
          · simp at hh
          · simp only [List.head?_cons, Option.some.injEq] at hh
            exact hne rest hc (by rw [hh])
        · exact Or.inl hc
  | case4 => intro h; simp [findMatch]

theorem findMatch_append_left : ∀ (p : List Char), hasBB p = false →
    p.getLast? ≠ some '[' →
    ∀ q, findMatch (p ++ q) = (findMatch q).map (fun x => (p ++ x.1, x.2)) := by
  intro p
  induction p with
  | nil =>
      intro _ _ q
      simp only [List.nil_append]
      cases findMatch q with
      | none => rfl
      | some x => rfl
  | cons c p ih =>
      intro hBB hlast q
      have hne : c ≠ '[' ∨ (p ++ q).head? ≠ some '[' := by
        by_cases hc : c = '['
        · right
          intro hh
          cases p with
          | nil => exact hlast (by simp [hc])
          | cons d p' =>
              simp only [List.cons_append, List.head?_cons, Option.some.injEq] at hh
              simp [hasBB, hc, hh] at hBB
        · exact Or.inl hc
      rw [List.cons_append, findMatch_cons c _ hne]
      have hBB' : hasBB p = false := by
        rw [hasBB, Bool.or_eq_false_iff] at hBB
        exact hBB.2
      have hlast' : p.getLast? ≠ some '[' := by
        intro h
        cases p with
        | nil => simp at h
        | cons d p' =>
            apply hlast
            rw [List.getLast?_cons_cons]
            exact h
      rw [ih hBB' hlast' q]
      cases findMatch q with
      | none => rfl
      | some x => rfl

theorem findMatch_rest_length {cs p i r : List Char}
    (h : findMatch cs = some (p, i, r)) : r.length < cs.length := by
  have := findMatch_append cs h
  rw [this]
  simp only [List.length_append, List.length_cons]
  omega

/-- The full JS split `text.split(/(\[\[.*?\]\])/g)`: the alternating list of
non-match and (reconstructed) match substrings, empty pieces included, exactly
as `String.prototype.split` with one capturing group produces them. -/
def partsOf (cs : List Char) : List (List Char) :=
  match h : findMatch cs with
  | none => [cs]
  | some (p, i, r) => p :: ('[' :: '[' :: (i ++ [']', ']'])) :: partsOf r
termination_by cs.length
decreasing_by exact findMatch_rest_length h

theorem partsOf_noMatch {cs : List Char} (h : findMatch cs = none) :
    partsOf cs = [cs] := by
  rw [partsOf, h]

theorem partsOf_match {cs p i r : List Char} (h : findMatch cs = some (p, i, r)) :
    partsOf cs = p :: ('[' :: '[' :: (i ++ [']', ']'])) :: partsOf r := by
  rw [partsOf, h]

/-! ## Date pass: `part.split(dateRegex)` with
`dateRegex = /(\b(?:AD\s*)?(?:4[0-9]{2}|[5-9][0-9]{2}|1[0-9]{3}|20[0-2][0-9])(?:s|\s*BC|\s*AD)?\b|\b\d{1,2}(?:st|nd|rd|th)\s+[Cc]entury\b)/g`

The matchers below mirror the regex's leftmost-match, alternation-order and
backtracking semantics.  The four year alternatives have pairwise disjoint
leading characters ('4'-'9' vs '1' vs '2'), so year matching is deterministic;
`\s*` is always followed by a non-space literal, so greedy space skipping is
deterministic as well. -/

/-- The trailing `\b` after a match: every alternative ends in a word
character, so the boundary holds iff the following text starts with a
non-word character (or is empty). -/
def bAfter : List Char → Bool
  | [] => true
  | c :: _ => !isWordC c

/-- The three-digit year alternatives `4[0-9]{2}|[5-9][0-9]{2}`, i.e. 400-999. -/
def y3 (a b c : Char) : Bool :=
  decide ('4' ≤ a ∧ a ≤ '9') && isDigitC b && isDigitC c

/-- The four-digit year alternatives `1[0-9]{3}|20[0-2][0-9]`, i.e. 1000-2029. -/
def y4 (a b c d : Char) : Bool :=
  (a == '1' && isDigitC b && isDigitC c && isDigitC d)
    || (a == '2' && b == '0' && decide ('0' ≤ c ∧ c ≤ '2') && isDigitC d)

/-- `(?:4[0-9]{2}|[5-9][0-9]{2}|1[0-9]{3}|20[0-2][0-9])` at the head. -/
def matchYear : List Char → Option (List Char × List Char)
  | a :: b :: c :: d :: rest =>
      if y3 a b c then some ([a, b, c], d :: rest)
      else if y4 a b c d then some ([a, b, c, d], rest)
      else none
  | [a, b, c] => if y3 a b c then some ([a, b, c], []) else none
  | _ => none

/-- Suffix alternative `s` followed by the boundary. -/
def trySfxS : List Char → Option (List Char × List Char)
  | 's' :: rest => if bAfter rest then some (['s'], rest) else none
  | _ => none

/-- Suffix alternative `\s*BC` followed by the boundary. -/
def trySfxBC (cs : List Char) : Option (List Char × List Char) :=
  match cs.dropWhile isSpaceC with
  | 'B' :: 'C' :: r' =>
      if bAfter r' then some (cs.takeWhile isSpaceC ++ ['B', 'C'], r') else none
  | _ => none

/-- Suffix alternative `\s*AD` followed by the boundary. -/
def trySfxAD (cs : List Char) : Option (List Char × List Char) :=
  match cs.dropWhile isSpaceC with
  | 'A' :: 'D' :: r' =>
      if bAfter r' then some (cs.takeWhile isSpaceC ++ ['A', 'D'], r') else none
  | _ => none

/-- `(?:s|\s*BC|\s*AD)?\b` at the head: the alternatives are tried in order,
each together with the trailing boundary, then the empty suffix. -/
def matchSuffix (cs : List Char) : Option (List Char × List Char) :=
  trySfxS cs <|> trySfxBC cs <|> trySfxAD cs
    <|> (if bAfter cs then some ([], cs) else none)

/-- Year followed by its optional suffix and boundary. -/
def matchYS (cs : List Char) : Option (List Char × List Char) :=
  match matchYear cs with
  | some (y, r) =>
      match matchSuffix r with
      | some (s, r') => some (y ++ s, r')
      | none => none
  | none => none

/-- First alternative of the date regex:
`\b(?:AD\s*)?(?:year)(?:s|\s*BC|\s*AD)?\b` (boundary at the start is checked
by the caller).  The optional `AD\s*` group is tried greedily first; when the
text starts with `AD` the prefix-less attempt can never succeed (a year never
starts with 'A'), so the fallback is exactly `matchYS`. -/
def tryADyear : List Char → Option (List Char × List Char)
  | 'A' :: 'D' :: rest =>
      match matchYS (rest.dropWhile isSpaceC) with
      | some (m, r') => some ('A' :: 'D' :: (rest.takeWhile isSpaceC ++ m), r')
      | none => none
  | _ => none

def matchA1 (cs : List Char) : Option (List Char × List Char) :=
  tryADyear cs <|> matchYS cs

/-- `(?:st|nd|rd|th)` at the head. -/
def matchOrd : List Char → Option (List Char × List Char)
  | 's' :: 't' :: r => some (['s', 't'], r)
  | 'n' :: 'd' :: r => some (['n', 'd'], r)
  | 'r' :: 'd' :: r => some (['r', 'd'], r)
  | 't' :: 'h' :: r => some (['t', 'h'], r)
  | _ => none

/-- `\s+[Cc]entury\b` at the head. -/
def matchCent (cs : List Char) : Option (List Char × List Char) :=
  let sp := cs.takeWhile isSpaceC
  let r := cs.dropWhile isSpaceC
  if sp.isEmpty then none
  else
    match r with
    | c0 :: 'e' :: 'n' :: 't' :: 'u' :: 'r' :: 'y' :: r' =>
        if (c0 == 'C' || c0 == 'c') && bAfter r' then
          some (sp ++ c0 :: ['e', 'n', 't', 'u', 'r', 'y'], r')
        else none
    | _ => none

/-- `(?:st|nd|rd|th)\s+[Cc]entury\b` at the head. -/
def matchOrdCent (cs : List Char) : Option (List Char × List Char) :=
  match matchOrd cs with
  | some (o, r) =>
      match matchCent r with
      | some (m, r') => some (o ++ m, r')
      | none => none
  | none => none

/-- Second alternative of the date regex: `\b\d{1,2}(?:st|nd|rd|th)\s+[Cc]entury\b`
(leading boundary checked by the caller); `\d{1,2}` is greedy, so two digits
are tried before one. -/
def matchA2 : List Char → Option (List Char × List Char)
  | a :: b :: rest =>
      if isDigitC a && isDigitC b then
        match matchOrdCent rest with
        | some (m, r) => some (a :: b :: m, r)
        | none =>
            match matchOrdCent (b :: rest) with
            | some (m, r) => some (a :: m, r)
            | none => none
      else if isDigitC a then
        match matchOrdCent (b :: rest) with
        | some (m, r) => some (a :: m, r)
        | none => none
      else none
  | _ => none

/-- Try both alternatives of the date regex at this position, in order. -/
def tryDateMatch (cs : List Char) : Option (List Char × List Char) :=
  matchA1 cs <|> matchA2 cs

theorem matchYear_append : ∀ {cs y r : List Char}, matchYear cs = some (y, r) →
    cs = y ++ r ∧ y ≠ [] := by
  intro cs y r h
  rcases cs with _ | ⟨a, _ | ⟨b, _ | ⟨c, _ | ⟨d, rest⟩⟩⟩⟩
  · simp [matchYear] at h
  · simp [matchYear] at h
  · simp [matchYear] at h
  · simp only [matchYear] at h
    split_ifs at h
    simp only [Option.some.injEq, Prod.mk.injEq] at h
    obtain ⟨h1, h2⟩ := h
    subst h1; subst h2
    simp
  · simp only [matchYear] at h
    split_ifs at h
    · simp only [Option.some.injEq, Prod.mk.injEq] at h
      obtain ⟨h1, h2⟩ := h
      subst h1; subst h2
      simp
    · simp only [Option.some.injEq, Prod.mk.injEq] at h
      obtain ⟨h1, h2⟩ := h
      subst h1; subst h2
      simp

theorem trySfxS_append {cs s r : List Char} (h : trySfxS cs = some (s, r)) :
    cs = s ++ r := by
  unfold trySfxS at h
  split at h
  · split_ifs at h
    simp only [Option.some.injEq, Prod.mk.injEq] at h
    obtain ⟨h1, h2⟩ := h
    subst h1; subst h2
    rfl
  · simp at h

theorem trySfxBC_append {cs s r : List Char} (h : trySfxBC cs = some (s, r)) :
    cs = s ++ r := by
  unfold trySfxBC at h
  split at h
  · next r' heq =>
      split_ifs at h
      simp only [Option.some.injEq, Prod.mk.injEq] at h
      obtain ⟨h1, h2⟩ := h
      subst h1; subst h2
      conv_lhs => rw [← List.takeWhile_append_dropWhile isSpaceC cs]
      rw [heq]
      simp
  · simp at h

theorem trySfxAD_append {cs s r : List Char} (h : trySfxAD cs = some (s, r)) :
    cs = s ++ r := by
  unfold trySfxAD at h
  split at h
  · next r' heq =>
      split_ifs at h
      simp only [Option.some.injEq, Prod.mk.injEq] at h
      obtain ⟨h1, h2⟩ := h
      subst h1; subst h2
      conv_lhs => rw [← List.takeWhile_append_dropWhile isSpaceC cs]
      rw [heq]
      simp
  · simp at h

theorem matchSuffix_append {cs s r : List Char} (h : matchSuffix cs = some (s, r)) :
    cs = s ++ r := by
  unfold matchSuffix at h
  rw [Option.orElse_eq_some] at h
  rcases h with h | ⟨-, h⟩
  · exact trySfxS_append h
  · rw [Option.orElse_eq_some] at h
    rcases h with h | ⟨-, h⟩
    · exact trySfxBC_append h
    · rw [Option.orElse_eq_some] at h
      rcases h with h | ⟨-, h⟩
      · exact trySfxAD_append h
      · split_ifs at h
        simp only [Option.some.injEq, Prod.mk.injEq] at h
        obtain ⟨h1, h2⟩ := h
        subst h1; subst h2
        rfl

theorem matchYS_append {cs m r : List Char} (h : matchYS cs = some (m, r)) :
    cs = m ++ r ∧ m ≠ [] := by
  unfold matchYS at h
  split at h
  · next y r0 heq =>
      split at h
      · next s r' heq2 =>
          simp only [Option.some.injEq, Prod.mk.injEq] at h
          obtain ⟨h1, h2⟩ := h
          subst h1; subst h2
          obtain ⟨hy, hyne⟩ := matchYear_append heq
          have hs := matchSuffix_append heq2
          constructor
          · rw [hy, hs, List.append_assoc]
          · simp [hyne]
      · simp at h
  · simp at h

theorem tryADyear_append {cs m r : List Char} (h : tryADyear cs = some (m, r)) :
    cs = m ++ r ∧ m ≠ [] := by
  unfold tryADyear at h
  split at h
  · next rest =>
      split at h
      · next m' r' heq =>
          simp only [Option.some.injEq, Prod.mk.injEq] at h
          obtain ⟨h1, h2⟩ := h
          subst h1; subst h2
          obtain ⟨hys, -⟩ := matchYS_append heq
          refine ⟨?_, by simp⟩
          simp only [List.cons_append, List.cons.injEq, true_and]
          conv_lhs => rw [← List.takeWhile_append_dropWhile isSpaceC rest]
          rw [hys]
          simp
      · simp at h
  · simp at h

theorem matchA1_append {cs m r : List Char} (h : matchA1 cs = some (m, r)) :
    cs = m ++ r ∧ m ≠ [] := by
  unfold matchA1 at h
  rw [Option.orElse_eq_some] at h
  rcases h with h | ⟨-, h⟩
  · exact tryADyear_append h
  · exact matchYS_append h

theorem matchOrd_append : ∀ {cs o r : List Char}, matchOrd cs = some (o, r) →
    cs = o ++ r ∧ o ≠ [] := by
  intro cs o r h
  unfold matchOrd at h
  split at h <;>
    (try simp at h) <;>
    (obtain ⟨h1, h2⟩ := h; subst h1; subst h2; simp)

theorem matchCent_append {cs m r : List Char} (h : matchCent cs = some (m, r)) :
    cs = m ++ r := by
  simp only [matchCent] at h
  split_ifs at h
  split at h
  · next c0 r' heq =>
      split_ifs at h
      simp only [Option.some.injEq, Prod.mk.injEq] at h
      obtain ⟨h1, h2⟩ := h
      subst h1; subst h2
      conv_lhs => rw [← List.takeWhile_append_dropWhile isSpaceC cs]
      rw [heq]
      simp
  · simp at h

theorem matchOrdCent_append {cs m r : List Char} (h : matchOrdCent cs = some (m, r)) :
    cs = m ++ r ∧ m ≠ [] := by
  unfold matchOrdCent at h
  split at h
  · next o r0 heq =>
      split at h
      · next m' r' heq2 =>
          simp only [Option.some.injEq, Prod.mk.injEq] at h
          obtain ⟨h1, h2⟩ := h
          subst h1; subst h2
          obtain ⟨ho, hone⟩ := matchOrd_append heq
          have hc := matchCent_append heq2
          refine ⟨?_, by simp [hone]⟩
          rw [ho, hc, List.append_assoc]
      · simp at h
  · simp at h

theorem matchA2_append : ∀ {cs m r : List Char}, matchA2 cs = some (m, r) →
    cs = m ++ r ∧ m ≠ [] := by
  intro cs m r h
  rcases cs with _ | ⟨a, _ | ⟨b, rest⟩⟩
  · simp [matchA2] at h
  · simp [matchA2] at h
  · simp only [matchA2] at h
    split_ifs at h
    · split at h
      · next m' r' heq =>
          simp only [Option.some.injEq, Prod.mk.injEq] at h
          obtain ⟨h1, h2⟩ := h
          subst h1; subst h2
          obtain ⟨hoc, -⟩ := matchOrdCent_append heq
          simp [hoc]
      · split at h
        · next m' r' heq =>
            simp only [Option.some.injEq, Prod.mk.injEq] at h
            obtain ⟨h1, h2⟩ := h
            subst h1; subst h2
            obtain ⟨hoc, -⟩ := matchOrdCent_append heq
            simp [hoc]
        · simp at h
    · split at h
      · next m' r' heq =>
          simp only [Option.some.injEq, Prod.mk.injEq] at h
          obtain ⟨h1, h2⟩ := h
          subst h1; subst h2
          obtain ⟨hoc, -⟩ := matchOrdCent_append heq
          simp [hoc]
      · simp at h

theorem tryDateMatch_append {cs m r : List Char} (h : tryDateMatch cs = some (m, r)) :
    cs = m ++ r ∧ m ≠ [] := by
  unfold tryDateMatch at h
  rw [Option.orElse_eq_some] at h
  rcases h with h | ⟨-, h⟩
  · exact matchA1_append h
  · exact matchA2_append h

/-- The date pass over one plain part: successive leftmost regex matches become
`date` spans, interleaved with the `text` spans between them (empty ones
included), exactly as `part.split(dateRegex)` followed by the renderer's
odd-index/even-index mapping produces.  `prevW` is the word-character status
of the preceding character (for the leading `\b`); it is `true` after a match
because every alternative of the regex ends in a word character
(a digit, 's', 'C', 'D' or 'y'). -/
def dateScanAux (prevW : Bool) (acc : List Char) : List Char → List Span
  | [] => [Span.text acc.reverse]
  | c :: rest =>
      if prevW then dateScanAux (isWordC c) (c :: acc) rest
      else
        match h : tryDateMatch (c :: rest) with
        | some (m, r) => Span.text acc.reverse :: Span.date m :: dateScanAux true [] r
        | none => dateScanAux (isWordC c) (c :: acc) rest
termination_by cs => cs.length
decreasing_by
  all_goals first
  | (simp only [List.length_cons]; omega)
  | (obtain ⟨he, hm⟩ := tryDateMatch_append h
     rw [he]
     rcases m with _ | ⟨x, xs⟩
     · exact absurd rfl hm
     · simp only [List.cons_append, List.length_cons, List.length_append]
       omega)

/-- The full date pass over one plain part, as the renderer applies it. -/
def dateSpans (cs : List Char) : List Span := dateScanAux false [] cs

theorem dateScanAux_flatten : ∀ (prevW : Bool) (acc cs : List Char),
    ((dateScanAux prevW acc cs).map Span.literal).flatten = acc.reverse ++ cs := by
  intro prevW acc cs
  induction prevW, acc, cs using dateScanAux.induct with
  | case1 prevW acc => simp [dateScanAux, Span.literal]
  | case2 acc c rest ih =>
      rw [dateScanAux]
      rw [if_pos rfl]
      rw [ih]
      simp
  | case3 prevW acc c rest hpw m r hmt ih =>
      rw [dateScanAux]
      rw [if_neg hpw, hmt]
      simp only [List.map_cons, List.flatten_cons, Span.literal]
      rw [ih]
      obtain ⟨he, -⟩ := tryDateMatch_append hmt
      simp only [List.reverse_nil, List.nil_append, List.append_assoc]
      rw [← he]
  | case4 prevW acc c rest hpw hmt ih =>
      rw [dateScanAux]
      rw [if_neg hpw, hmt]
      rw [ih]
      simp

theorem dateScanAux_refs : ∀ (prevW : Bool) (acc cs : List Char),
    (dateScanAux prevW acc cs).filterMap Span.refTerm = [] := by
  intro prevW acc cs
  induction prevW, acc, cs using dateScanAux.induct with
  | case1 prevW acc => simp [dateScanAux, Span.refTerm]
  | case2 acc c rest ih =>
      rw [dateScanAux]
      rw [if_pos rfl]
      exact ih
  | case3 prevW acc c rest hpw m r hmt ih =>
      rw [dateScanAux]
      rw [if_neg hpw, hmt]
      simpa [Span.refTerm] using ih
  | case4 prevW acc c rest hpw hmt ih =>
      rw [dateScanAux]
      rw [if_neg hpw, hmt]
      simpa using ih

/-! ## Glossary lookup and the full scanner `renderRichText` -/

/-- A glossary entry `{term, definition}`, as in the Lesson data model. -/
structure GlossaryItem where
  term : List Char
  definition : List Char
deriving DecidableEq, Repr

/-- JS `String.prototype.toLowerCase` (character-wise, ASCII range). -/
def lower (cs : List Char) : List Char := cs.map Char.toLower

/-- The literal placeholder definition `"Definition unavailable."`. -/
def defUnavailable : List Char :=
  ['D', 'e', 'f', 'i', 'n', 'i', 't', 'i', 'o', 'n', ' ',
   'u', 'n', 'a', 'v', 'a', 'i', 'l', 'a', 'b', 'l', 'e', '.']

/-- The renderer's lookup
`content.glossary?.find(g => g.term.toLowerCase() === termText.toLowerCase())`
with the `|| { term, definition: "Definition unavailable." }` fallback:
case-insensitive, first match wins, placeholder when the glossary is absent
(`none`) or no entry matches. -/
def glossLookup (glossary : Option (List GlossaryItem)) (t : List Char) :
    List Char :=
  match glossary with
  | none => defUnavailable
  | some gs =>
      match gs.find? (fun g => lower g.term == lower t) with
      | some g => g.definition
      | none => defUnavailable

/-- `part.startsWith('[[')`. -/
def startsBB : List Char → Bool
  | a :: b :: _ => a == '[' && b == '['
  | _ => false

/-- `part.endsWith(']]')`. -/
def endsBB (cs : List Char) : Bool :=
  match cs.reverse with
  | a :: b :: _ => a == ']' && b == ']'
  | _ => false

/-- `part.slice(2, -2)`: the part without its first two and last two characters. -/
def sliceInner (cs : List Char) : List Char := ((cs.drop 2).dropLast).dropLast

/-- Render one split part, exactly as the renderer's `parts.map` callback does:
a part that starts with `[[` and ends with `]]` becomes a glossary-ref span
(the button shows the bracket contents, clicking shows the looked-up
definition); every other part goes through the date pass. -/
def renderPart (glossary : Option (List GlossaryItem)) (part : List Char) :
    List Span :=
  if startsBB part && endsBB part then
    [Span.ref (sliceInner part) (glossLookup glossary (sliceInner part))]
  else
    dateSpans part

/-- The annotation scanner `renderRichText`: bracket split, then per-part
rendering. -/
def renderRichText (glossary : Option (List GlossaryItem)) (text : List Char) :
    List Span :=
  ((partsOf text).map (renderPart glossary)).flatten

/-! ## Well-formed region decompositions -/

/-- `p` is an inert plain stretch for the bracket pass: it contains no `[[`
and does not end in `[` (an ending `[` would fuse with a following `[[`
delimiter into an earlier match start). -/
def okPlain (p : List Char) : Prop := hasBB p = false ∧ p.getLast? ≠ some '['

/-- `t` is a well-formed glossary term body for a `[[t]]` region: no `]]`
inside (non-overlapping), no nested `[[`, no line terminator — LF, CR, U+2028
or U+2029, since the lazy `.` of the JS regex cannot cross any of them — and
not ending in `]` (which would fuse with the closing delimiter). -/
def okTerm (t : List Char) : Prop :=
  hasEE t = false ∧ hasBB t = false ∧ (∀ c ∈ t, isLineTerm c = false) ∧
    t.getLast? ≠ some ']'

instance (p : List Char) : Decidable (okPlain p) := by
  unfold okPlain; infer_instance

instance (t : List Char) : Decidable (okTerm t) := by
  unfold okTerm; infer_instance

/-- Text built from interleaved plain stretches and `[[…]]` regions, finished
by a final plain stretch: `p₀ [[t₁]] p₁ … [[tₙ]] pₙ`. -/
def regionText : List (List Char × List Char) → List Char → List Char
  | [], pn => pn
  | (p, t) :: rest, pn => p ++ '[' :: '[' :: (t ++ ']' :: ']' :: regionText rest pn)

/-- The part list the bracket split produces for such a text. -/
def partsList : List (List Char × List Char) → List Char → List (List Char)
  | [], pn => [pn]
  | (p, t) :: rest, pn => p :: ('[' :: '[' :: (t ++ [']', ']'])) :: partsList rest pn

/-- The same text with the `[[` and `]]` delimiters removed. -/
def strippedText : List (List Char × List Char) → List Char → List Char
  | [], pn => pn
  | (p, t) :: rest, pn => p ++ t ++ strippedText rest pn

/-- The spans the scanner produces for the regions (final stretch excluded). -/
def regionSpans (glossary : Option (List GlossaryItem))
    (rs : List (List Char × List Char)) : List Span :=
  (rs.map (fun pt => dateSpans pt.1 ++ [Span.ref pt.2 (glossLookup glossary pt.2)])).flatten

theorem partsOf_regionText : ∀ (rs : List (List Char × List Char)) (pn : List Char),
    (∀ pt ∈ rs, okPlain pt.1 ∧ okTerm pt.2) → findMatch pn = none →
    partsOf (regionText rs pn) = partsList rs pn := by
  intro rs
  induction rs with
  | nil => intro pn _ hpn; rw [regionText, partsList, partsOf_noMatch hpn]
  | cons pt rest ih =>
      intro pn hrs hpn
      obtain ⟨p, t⟩ := pt
      obtain ⟨⟨hpBB, hpLast⟩, htEE, htBB, htNL, htLast⟩ := hrs (p, t) (by simp)
      rw [regionText]
      have hfm : findMatch (p ++ '[' :: '[' :: (t ++ ']' :: ']' :: regionText rest pn)) =
          some (p, t, regionText rest pn) := by
        rw [findMatch_append_left p hpBB hpLast, findMatch_bb,
          findTerm_ok t htEE htNL htLast]
        simp
      rw [partsOf_match hfm, partsList]
      have := ih pn (fun q hq => hrs q (by simp [hq])) hpn
      rw [this]

theorem renderPart_bracket (g : Option (List GlossaryItem)) (t : List Char) :
    renderPart g ('[' :: '[' :: (t ++ [']', ']'])) =
      [Span.ref t (glossLookup g t)] := by
  have hslice : sliceInner ('[' :: '[' :: (t ++ [']', ']'])) = t := by
    unfold sliceInner
    simp only [List.drop_succ_cons, List.drop_zero]
    have : t ++ [']', ']'] = (t ++ [']']) ++ [']'] := by simp
    rw [this, List.dropLast_concat, List.dropLast_concat]
  have hends : endsBB ('[' :: '[' :: (t ++ [']', ']'])) = true := by
    unfold endsBB
    simp
  unfold renderPart
  rw [hslice, hends]
  simp [startsBB]

theorem startsBB_false_of_noBB {p : List Char} (h : hasBB p = false) :
    startsBB p = false := by
  rcases p with _ | ⟨a, _ | ⟨b, rest⟩⟩
  · rfl
  · rfl
  · rw [hasBB, Bool.or_eq_false_iff] at h
    have := h.1
    simp only [List.head?_cons] at this
    unfold startsBB
    exact this

theorem renderPart_plain (g : Option (List GlossaryItem)) {p : List Char}
    (h : hasBB p = false) : renderPart g p = dateSpans p := by
  unfold renderPart
  rw [startsBB_false_of_noBB h]
  simp

theorem renderRichText_regionText (g : Option (List GlossaryItem)) :
    ∀ (rs : List (List Char × List Char)) (pn : List Char),
    (∀ pt ∈ rs, okPlain pt.1 ∧ okTerm pt.2) → findMatch pn = none →
    renderRichText g (regionText rs pn) = regionSpans g rs ++ renderPart g pn := by
  intro rs
  induction rs with
  | nil =>
      intro pn _ hpn
      rw [regionText, renderRichText, partsOf_noMatch hpn]
      simp [regionSpans]
  | cons pt rest ih =>
      intro pn hrs hpn
      obtain ⟨p, t⟩ := pt
      obtain ⟨⟨hpBB, hpLast⟩, hokT⟩ := hrs (p, t) (by simp)
      rw [renderRichText, partsOf_regionText _ pn hrs hpn, partsList]
      simp only [List.map_cons, List.flatten_cons]
      have hrec : ((partsList rest pn).map (renderPart g)).flatten =
          regionSpans g rest ++ renderPart g pn := by
        have := ih pn (fun q hq => hrs q (by simp [hq])) hpn
        rw [renderRichText, partsOf_regionText rest pn
          (fun q hq => hrs q (by simp [hq])) hpn] at this
        exact this
      rw [hrec, renderPart_bracket, renderPart_plain g hpBB]
      simp [regionSpans, List.append_assoc]

theorem regionSpans_refs (g : Option (List GlossaryItem)) :
    ∀ (rs : List (List Char × List Char)),
    (regionSpans g rs).filterMap Span.refTerm = rs.map Prod.snd := by
  intro rs
  induction rs with
  | nil => simp [regionSpans]
  | cons pt rest ih =>
      obtain ⟨p, t⟩ := pt
      simp only [regionSpans, List.map_cons, List.flatten_cons] at *
      rw [List.filterMap_append, List.filterMap_append]
      simp only [dateSpans] at *
      rw [dateScanAux_refs, ih]
      simp [Span.refTerm]

theorem regionSpans_flatten (g : Option (List GlossaryItem)) :
    ∀ (rs : List (List Char × List Char)) (z : List Char),
    ((regionSpans g rs).map Span.literal).flatten ++ z = strippedText rs z := by
  intro rs
  induction rs with
  | nil => intro z; simp [regionSpans, strippedText]
  | cons pt rest ih =>
      intro z
      obtain ⟨p, t⟩ := pt
      simp only [regionSpans, List.map_cons, List.flatten_cons] at *
      rw [List.map_append, List.map_append, List.flatten_append, List.flatten_append]
      simp only [dateSpans] at *
      rw [dateScanAux_flatten, strippedText]
      simp only [List.reverse_nil, List.nil_append, List.map_cons, List.map_nil,
        Span.literal, List.flatten_cons, List.flatten_nil, List.append_nil,
        List.append_assoc]
      rw [ih z]

theorem hasEE_append_ee : ∀ (w z : List Char), hasEE (w ++ ']' :: ']' :: z) = true := by
  intro w z
  induction w with
  | nil => simp [hasEE]
  | cons c w ih => simp [hasEE, ih]

theorem endsBB_app_false (p v : List Char) (hv : hasEE v = false) :
    endsBB (p ++ '[' :: '[' :: v) = false := by
  unfold endsBB
  have hrev : (p ++ '[' :: '[' :: v).reverse = v.reverse ++ '[' :: '[' :: p.reverse := by
    simp
  rw [hrev]
  rcases hv' : v.reverse with _ | ⟨x, _ | ⟨y, w⟩⟩
  · simp
  · simp
  · simp only [List.cons_append]
    have hxy : ¬(x = ']' ∧ y = ']') := by
      rintro ⟨hx, hy⟩
      have hveq : v = w.reverse ++ [y, x] := by
        have := congrArg List.reverse hv'
        simpa using this
      rw [hveq, hx, hy] at hv
      have : ([']'] : List Char) = [] ++ [']'] := by simp
      rw [show (w.reverse ++ [']', ']'] : List Char) =
        w.reverse ++ ']' :: ']' :: [] by simp, hasEE_append_ee] at hv
      exact absurd hv (by simp)
    have : (x == ']' && y == ']') = false := by
      rcases Bool.eq_false_or_eq_true (x == ']') with h | h
      · have hx : x = ']' := by simpa using h
        have hy : y ≠ ']' := fun hy => hxy ⟨hx, hy⟩
        simp [hx, hy]
      · simp [h]
    simp [this]

theorem hasEE_bb_cons (v : List Char) : hasEE ('[' :: '[' :: v) = hasEE v := by
  simp [hasEE]

/-- First-match characterisation of `List.find?`. -/
theorem find?_first {α : Type} (q : α → Bool) :
    ∀ (pre : List α) (g0 : α) (post : List α), q g0 = true →
    (∀ g1 ∈ pre, q g1 = false) →
    (pre ++ g0 :: post).find? q = some g0 := by
  intro pre
  induction pre with
  | nil => intro g0 post hq _; simp [List.find?_cons, hq]
  | cons a pre ih =>
      intro g0 post hq hpre
      have ha : q a = false := hpre a (by simp)
      simp only [List.cons_append, List.find?_cons, ha]
      exact ih g0 post hq (fun g1 hg1 => hpre g1 (by simp [hg1]))

/-! ## Claim C2, C6, C10 -/

/-- C2: for every text composed of N non-overlapping, non-nested `[[…]]`
regions interleaved with inert plain stretches, `renderRichText` produces
exactly N GlossaryRef spans, in original left-to-right order (their terms are
the region bodies in order), and the concatenation of all spans' literal text
(bracket contents for refs, matched substring for date markers, raw text for
plain spans) equals the original text with the `[[` and `]]` delimiters
removed. -/
theorem c2_scan_regions (g : Option (List GlossaryItem))
    (rs : List (List Char × List Char)) (pn : List Char)
    (hrs : ∀ pt ∈ rs, okPlain pt.1 ∧ okTerm pt.2) (hpn : okPlain pn) :
    renderRichText g (regionText rs pn) = regionSpans g rs ++ dateSpans pn
    ∧ (renderRichText g (regionText rs pn)).filterMap Span.refTerm = rs.map Prod.snd
    ∧ ((renderRichText g (regionText rs pn)).map Span.literal).flatten
        = strippedText rs pn := by
  have hnm : findMatch pn = none := findMatch_none_of_noBB pn hpn.1
  have h1 : renderRichText g (regionText rs pn) = regionSpans g rs ++ dateSpans pn := by
    rw [renderRichText_regionText g rs pn hrs hnm, renderPart_plain g hpn.1]
  refine ⟨h1, ?_, ?_⟩
  · rw [h1, List.filterMap_append, regionSpans_refs]
    simp only [dateSpans]
    rw [dateScanAux_refs]
    simp
  · rw [h1, List.map_append, List.flatten_append]
    simp only [dateSpans]
    rw [dateScanAux_flatten]
    simpa using regionSpans_flatten g rs pn

theorem c2_scan_regions_witness :
    renderRichText none
        (regionText [(['I', 'n', ' ', '1', '0', '6', '6', ' '], ['c', 'o', 'g', 'n', 'a', 't', 'e'])]
          ['.']) =
      regionSpans none [(['I', 'n', ' ', '1', '0', '6', '6', ' '], ['c', 'o', 'g', 'n', 'a', 't', 'e'])]
        ++ dateSpans ['.']
    ∧ (renderRichText none
        (regionText [(['I', 'n', ' ', '1', '0', '6', '6', ' '], ['c', 'o', 'g', 'n', 'a', 't', 'e'])]
          ['.'])).filterMap Span.refTerm
        = [(['I', 'n', ' ', '1', '0', '6', '6', ' '], ['c', 'o', 'g', 'n', 'a', 't', 'e'])].map Prod.snd
    ∧ ((renderRichText none
        (regionText [(['I', 'n', ' ', '1', '0', '6', '6', ' '], ['c', 'o', 'g', 'n', 'a', 't', 'e'])]
          ['.'])).map Span.literal).flatten
        = strippedText [(['I', 'n', ' ', '1', '0', '6', '6', ' '], ['c', 'o', 'g', 'n', 'a', 't', 'e'])]
          ['.'] :=
  c2_scan_regions none _ _ (by decide) (by decide)

theorem findMatch_nil : findMatch [] = none := by simp [findMatch]

theorem dateScanAux_nil (pw : Bool) (acc : List Char) :
    dateScanAux pw acc [] = [Span.text acc.reverse] := by
  rw [dateScanAux]

theorem renderPart_nil (g : Option (List GlossaryItem)) :
    renderPart g [] = [Span.text []] := by
  unfold renderPart
  rw [dateSpans, dateScanAux_nil]
  rfl

/-- C6: scanning a `[[term]]` region produces a GlossaryRef whose term is the
literal bracket contents and whose resolved definition is the definition of
the first glossary entry matching the contents case-insensitively; when no
entry matches or the glossary is absent, the resolved definition is the
literal placeholder `"Definition unavailable."` — never an error. -/
theorem c6_glossary_lookup (g : Option (List GlossaryItem)) (t : List Char)
    (ht : okTerm t) :
    renderRichText g ('[' :: '[' :: (t ++ [']', ']'])) =
      [Span.text [], Span.ref t (glossLookup g t), Span.text []]
    ∧ glossLookup none t = defUnavailable
    ∧ (∀ gs pre g0 post, g = some gs → gs = pre ++ g0 :: post →
        lower g0.term = lower t → (∀ g1 ∈ pre, lower g1.term ≠ lower t) →
        glossLookup g t = g0.definition)
    ∧ (∀ gs, g = some gs → (∀ g1 ∈ gs, lower g1.term ≠ lower t) →
        glossLookup g t = defUnavailable) := by
  refine ⟨?_, rfl, ?_, ?_⟩
  · have hshape : ('[' :: '[' :: (t ++ [']', ']']) : List Char) =
        regionText [([], t)] [] := by
      simp [regionText]
    rw [hshape, renderRichText_regionText g [([], t)] []
      (by intro pt hpt; simp at hpt; subst hpt; exact ⟨⟨rfl, by simp⟩, ht⟩)
      findMatch_nil]
    simp only [regionSpans, List.map_cons, List.map_nil, List.flatten_cons,
      List.flatten_nil]
    rw [renderPart_nil, dateSpans, dateScanAux_nil]
    rfl
  · rintro gs pre g0 post rfl rfl hq hpre
    simp only [glossLookup]
    rw [find?_first (fun g1 => lower g1.term == lower t) pre g0 post
      (by simp [hq]) (fun g1 hg1 => by simpa using hpre g1 hg1)]
  · rintro gs rfl hnone
    simp only [glossLookup]
    rw [List.find?_eq_none.mpr (fun g1 hg1 => by simpa using hnone g1 hg1)]

theorem c6_glossary_lookup_witness :
    renderRichText (some [GlossaryItem.mk ['C', 'o', 'g', 'n', 'a', 't', 'e'] ['d', '1']])
        ('[' :: '[' :: (['c', 'o', 'g', 'n', 'a', 't', 'e'] ++ [']', ']'])) =
      [Span.text [],
       Span.ref ['c', 'o', 'g', 'n', 'a', 't', 'e']
         (glossLookup (some [GlossaryItem.mk ['C', 'o', 'g', 'n', 'a', 't', 'e'] ['d', '1']])
           ['c', 'o', 'g', 'n', 'a', 't', 'e']),
       Span.text []]
    ∧ glossLookup none ['c', 'o', 'g', 'n', 'a', 't', 'e'] = defUnavailable
    ∧ (∀ gs pre g0 post,
        some [GlossaryItem.mk ['C', 'o', 'g', 'n', 'a', 't', 'e'] ['d', '1']] = some gs →
        gs = pre ++ g0 :: post →
        lower g0.term = lower ['c', 'o', 'g', 'n', 'a', 't', 'e'] →
        (∀ g1 ∈ pre, lower g1.term ≠ lower ['c', 'o', 'g', 'n', 'a', 't', 'e']) →
        glossLookup (some [GlossaryItem.mk ['C', 'o', 'g', 'n', 'a', 't', 'e'] ['d', '1']])
          ['c', 'o', 'g', 'n', 'a', 't', 'e'] = g0.definition)
    ∧ (∀ gs,
        some [GlossaryItem.mk ['C', 'o', 'g', 'n', 'a', 't', 'e'] ['d', '1']] = some gs →
        (∀ g1 ∈ gs, lower g1.term ≠ lower ['c', 'o', 'g', 'n', 'a', 't', 'e']) →
        glossLookup (some [GlossaryItem.mk ['C', 'o', 'g', 'n', 'a', 't', 'e'] ['d', '1']])
          ['c', 'o', 'g', 'n', 'a', 't', 'e'] = defUnavailable) :=
  c6_glossary_lookup (some [GlossaryItem.mk ['C', 'o', 'g', 'n', 'a', 't', 'e'] ['d', '1']])
    ['c', 'o', 'g', 'n', 'a', 't', 'e'] (by decide)

/-- C10: for text ending in an unterminated `[[` (no `]]` anywhere after it),
the scanner produces no GlossaryRef for that delimiter — only the refs of the
complete regions before it — the `[[` characters are preserved literally in
the plain-text output, and that trailing stretch is still date-scanned; the
scan is total, so no error is raised. -/
theorem c10_unterminated (g : Option (List GlossaryItem))
    (rs : List (List Char × List Char)) (p v : List Char)
    (hrs : ∀ pt ∈ rs, okPlain pt.1 ∧ okTerm pt.2)
    (hp : okPlain p) (hv : hasEE v = false) :
    renderRichText g (regionText rs (p ++ '[' :: '[' :: v)) =
      regionSpans g rs ++ dateSpans (p ++ '[' :: '[' :: v)
    ∧ (renderRichText g (regionText rs (p ++ '[' :: '[' :: v))).filterMap Span.refTerm
        = rs.map Prod.snd
    ∧ ((dateSpans (p ++ '[' :: '[' :: v)).map Span.literal).flatten
        = p ++ '[' :: '[' :: v := by
  have hnm : findMatch (p ++ '[' :: '[' :: v) = none := by
    rw [findMatch_append_left p hp.1 hp.2,
      findMatch_none_of_noEE _ (by rw [hasEE_bb_cons]; exact hv)]
    rfl
  have hrp : renderPart g (p ++ '[' :: '[' :: v) = dateSpans (p ++ '[' :: '[' :: v) := by
    unfold renderPart
    rw [endsBB_app_false p v hv]
    simp
  have h1 : renderRichText g (regionText rs (p ++ '[' :: '[' :: v)) =
      regionSpans g rs ++ dateSpans (p ++ '[' :: '[' :: v) := by
    rw [renderRichText_regionText g rs _ hrs hnm, hrp]
  refine ⟨h1, ?_, ?_⟩
  · rw [h1, List.filterMap_append, regionSpans_refs]
    simp only [dateSpans]
    rw [dateScanAux_refs]
    simp
  · simp only [dateSpans]
    rw [dateScanAux_flatten]
    simp

theorem c10_unterminated_witness :
    renderRichText none
        (regionText [(([] : List Char), ['o', 'k'])]
          (['s', 'e', 'e', ' '] ++ '[' :: '[' :: ['a', ' ', '1', '0', '6', '6'])) =
      regionSpans none [(([] : List Char), ['o', 'k'])]
        ++ dateSpans (['s', 'e', 'e', ' '] ++ '[' :: '[' :: ['a', ' ', '1', '0', '6', '6'])
    ∧ (renderRichText none
        (regionText [(([] : List Char), ['o', 'k'])]
          (['s', 'e', 'e', ' '] ++ '[' :: '[' :: ['a', ' ', '1', '0', '6', '6']))).filterMap
          Span.refTerm = [(([] : List Char), ['o', 'k'])].map Prod.snd
    ∧ ((dateSpans (['s', 'e', 'e', ' '] ++ '[' :: '[' :: ['a', ' ', '1', '0', '6', '6'])).map
          Span.literal).flatten
        = ['s', 'e', 'e', ' '] ++ '[' :: '[' :: ['a', ' ', '1', '0', '6', '6'] :=
  c10_unterminated none [(([] : List Char), ['o', 'k'])] ['s', 'e', 'e', ' ']
    ['a', ' ', '1', '0', '6', '6'] (by decide) (by decide) (by decide)

/-! ## Claim C5: year tokens and the date classifier -/

/-- Fuel-driven digit expansion (structural, so the kernel can evaluate it). -/
def natCharsAux : Nat → Nat → List Char
  | 0, _ => []
  | fuel + 1, n =>
      if n < 10 then [Nat.digitChar n]
      else natCharsAux fuel (n / 10) ++ [Nat.digitChar (n % 10)]

/-- Canonical decimal numeral of a natural number (most significant digit
first), modelling a number token as it appears in running text. -/
def natChars (n : Nat) : List Char := natCharsAux (n + 1) n

theorem isDigitC_mem {c : Char} (h : isDigitC c = true) :
    c ∈ ['0', '1', '2', '3', '4', '5', '6', '7', '8', '9'] := by
  unfold isDigitC at h
  have h' := of_decide_eq_true h
  have h1 : 48 ≤ c.toNat := Char.le_def.mp h'.1
  have h2 : c.toNat ≤ 57 := Char.le_def.mp h'.2
  have hcases : c.toNat = 48 ∨ c.toNat = 49 ∨ c.toNat = 50 ∨ c.toNat = 51 ∨
      c.toNat = 52 ∨ c.toNat = 53 ∨ c.toNat = 54 ∨ c.toNat = 55 ∨
      c.toNat = 56 ∨ c.toNat = 57 := by omega
  rcases hcases with hc | hc | hc | hc | hc | hc | hc | hc | hc | hc
  · simp [show c = '0' from Char.ext (UInt32.ext hc)]
  · simp [show c = '1' from Char.ext (UInt32.ext hc)]
  · simp [show c = '2' from Char.ext (UInt32.ext hc)]
  · simp [show c = '3' from Char.ext (UInt32.ext hc)]
  · simp [show c = '4' from Char.ext (UInt32.ext hc)]
  · simp [show c = '5' from Char.ext (UInt32.ext hc)]
  · simp [show c = '6' from Char.ext (UInt32.ext hc)]
  · simp [show c = '7' from Char.ext (UInt32.ext hc)]
  · simp [show c = '8' from Char.ext (UInt32.ext hc)]
  · simp [show c = '9' from Char.ext (UInt32.ext hc)]

theorem digit_word {c : Char} (h : isDigitC c = true) : isWordC c = true := by
  have := isDigitC_mem h
  fin_cases this <;> decide

theorem digit_not_space {c : Char} (h : isDigitC c = true) : isSpaceC c = false := by
  have := isDigitC_mem h
  fin_cases this <;> decide

theorem digit_ne {c : Char} (h : isDigitC c = true) :
    c ≠ 's' ∧ c ≠ 'n' ∧ c ≠ 'r' ∧ c ≠ 't' ∧ c ≠ 'A' ∧ c ≠ 'B' ∧ c ≠ '[' := by
  have := isDigitC_mem h
  fin_cases this <;> decide

theorem digitChar_digit {m : Nat} (h : m < 10) : isDigitC (Nat.digitChar m) = true := by
  interval_cases m <;> decide

theorem natCharsAux_digits : ∀ (f n : Nat) (c : Char), c ∈ natCharsAux f n →
    isDigitC c = true := by
  intro f
  induction f with
  | zero => intro n c hc; simp [natCharsAux] at hc
  | succ f ih =>
      intro n c hc
      rw [natCharsAux] at hc
      split_ifs at hc with hn
      · simp at hc
        subst hc
        exact digitChar_digit hn
      · simp only [List.mem_append, List.mem_singleton] at hc
        rcases hc with hc | hc
        · exact ih (n / 10) c hc
        · subst hc
          exact digitChar_digit (Nat.mod_lt n (by omega))

theorem natChars_digits {n : Nat} {c : Char} (hc : c ∈ natChars n) :
    isDigitC c = true := natCharsAux_digits (n + 1) n c hc

theorem natCharsAux_len : ∀ (f k n : Nat), 10 ^ k ≤ n → k < f →
    k + 1 ≤ (natCharsAux f n).length := by
  intro f
  induction f with
  | zero => intro k n _ hk; omega
  | succ f ih =>
      intro k n hpow hk
      rw [natCharsAux]
      split_ifs with hn
      · have hk0 : k = 0 := by
          by_contra hne
          have h1 : (10 : Nat) ^ 1 ≤ 10 ^ k := Nat.pow_le_pow_right (by omega) (by omega)
          simp at h1
          omega
        subst hk0
        simp
      · cases k with
        | zero => simp [List.length_append]
        | succ k' =>
            have hdiv : 10 ^ k' ≤ n / 10 := by
              rw [Nat.le_div_iff_mul_le (by omega)]
              calc 10 ^ k' * 10 = 10 ^ (k' + 1) := by rw [pow_succ]
                _ ≤ n := hpow
            have := ih k' (n / 10) hdiv (by omega)
            simp only [List.length_append, List.length_cons, List.length_nil]
            omega

theorem natChars_len5 {n : Nat} (h : 10000 ≤ n) : 5 ≤ (natChars n).length := by
  have : (10 : Nat) ^ 4 ≤ n := by norm_num; omega
  have := natCharsAux_len (n + 1) 4 n this (by omega)
  simpa using this

theorem hasBB_false_of_no_lb : ∀ (cs : List Char), '[' ∉ cs → hasBB cs = false := by
  intro cs
  induction cs with
  | nil => intro _; rfl
  | cons c rest ih =>
      intro h
      rw [hasBB, Bool.or_eq_false_iff]
      constructor
      · have : c ≠ '[' := fun hc => h (by simp [hc])
        simp [this]
      · exact ih (fun hc => h (by simp [hc]))

theorem renderRichText_noBB (g : Option (List GlossaryItem)) (cs : List Char)
    (h : hasBB cs = false) : renderRichText g cs = dateSpans cs := by
  rw [renderRichText, partsOf_noMatch (findMatch_none_of_noBB cs h)]
  simp [renderPart_plain g h]

theorem dateScanAux_cons_false (acc : List Char) (c : Char) (rest : List Char) :
    dateScanAux false acc (c :: rest) =
      match tryDateMatch (c :: rest) with
      | some (m, r) => Span.text acc.reverse :: Span.date m :: dateScanAux true [] r
      | none => dateScanAux (isWordC c) (c :: acc) rest := by
  rw [dateScanAux, if_neg (by simp : ¬(false = true))]
  split
  · next m r heq => rw [heq]
  · next heq => rw [heq]

theorem scan_words : ∀ (cs acc : List Char), (∀ c ∈ cs, isWordC c = true) →
    dateScanAux true acc cs = [Span.text (acc.reverse ++ cs)] := by
  intro cs
  induction cs with
  | nil => intro acc _; rw [dateScanAux]; simp
  | cons c rest ih =>
      intro acc hw
      rw [dateScanAux, if_pos rfl, hw c (by simp), ih (c :: acc)
        (fun x hx => hw x (by simp [hx]))]
      simp

theorem dateSpans_full_match {c : Char} {rest : List Char}
    (h : tryDateMatch (c :: rest) = some (c :: rest, [])) :
    dateSpans (c :: rest) = [Span.text [], Span.date (c :: rest), Span.text []] := by
  rw [dateSpans, dateScanAux_cons_false, h]
  simp [dateScanAux_nil]

theorem dateSpans_word_noMatch : ∀ (cs : List Char),
    (∀ c ∈ cs, isWordC c = true) → tryDateMatch cs = none →
    dateSpans cs = [Span.text cs] := by
  intro cs hw hnm
  cases cs with
  | nil => rw [dateSpans, dateScanAux_nil]; rfl
  | cons c rest =>
      rw [dateSpans, dateScanAux_cons_false, hnm, hw c (by simp),
        scan_words rest (c :: []) (fun x hx => hw x (by simp [hx]))]
      simp

theorem tryADyear_digit {a : Char} (tl : List Char) (h : isDigitC a = true) :
    tryADyear (a :: tl) = none := by
  have ha : a ≠ 'A' := (digit_ne h).2.2.2.2.1
  unfold tryADyear
  split
  · next rest heq =>
      injection heq with h1 _
      exact absurd h1 ha
  · rfl

theorem matchSuffix_digit {a : Char} (tl : List Char) (h : isDigitC a = true) :
    matchSuffix (a :: tl) = none := by
  obtain ⟨hs, -, -, -, hA, hB, -⟩ := digit_ne h
  have hsp : isSpaceC a = false := digit_not_space h
  have hdw : (a :: tl).dropWhile isSpaceC = a :: tl := by
    simp [List.dropWhile_cons, hsp]
  have h1 : trySfxS (a :: tl) = none := by
    unfold trySfxS
    split
    · next rest heq =>
        injection heq with hh _
        exact absurd hh hs
    · rfl
  have h2 : trySfxBC (a :: tl) = none := by
    unfold trySfxBC
    rw [hdw]
    split
    · next r' heq =>
        injection heq with hh _
        exact absurd hh hB
    · rfl
  have h3 : trySfxAD (a :: tl) = none := by
    unfold trySfxAD
    rw [hdw]
    split
    · next r' heq =>
        injection heq with hh _
        exact absurd hh hA
    · rfl
  have h4 : bAfter (a :: tl) = false := by
    simp [bAfter, digit_word h]
  unfold matchSuffix
  rw [h1, h2, h3, h4]
  rfl

theorem matchOrd_digit {a : Char} (tl : List Char) (h : isDigitC a = true) :
    matchOrd (a :: tl) = none := by
  obtain ⟨hs, hn, hr, ht, -, -, -⟩ := digit_ne h
  unfold matchOrd
  split
  · next heq => injection heq with hh _; exact absurd hh hs
  · next heq => injection heq with hh _; exact absurd hh hn
  · next heq => injection heq with hh _; exact absurd hh hr
  · next heq => injection heq with hh _; exact absurd hh ht
  · rfl

theorem matchYear_len : ∀ {cs y r : List Char}, matchYear cs = some (y, r) →
    y.length ≤ 4 := by
  intro cs y r h
  rcases cs with _ | ⟨a, _ | ⟨b, _ | ⟨c, _ | ⟨d, rest⟩⟩⟩⟩
  · simp [matchYear] at h
  · simp [matchYear] at h
  · simp [matchYear] at h
  · simp only [matchYear] at h
    split_ifs at h
    simp only [Option.some.injEq, Prod.mk.injEq] at h
    obtain ⟨h1, -⟩ := h
    subst h1
    simp
  · simp only [matchYear] at h
    split_ifs at h <;>
      (simp only [Option.some.injEq, Prod.mk.injEq] at h
       obtain ⟨h1, -⟩ := h
       subst h1
       simp)

theorem matchYS_digits {ds : List Char} (hd : ∀ c ∈ ds, isDigitC c = true)
    (hlen : 5 ≤ ds.length) : matchYS ds = none := by
  unfold matchYS
  cases hmy : matchYear ds with
  | none => rfl
  | some p =>
      obtain ⟨y, r⟩ := p
      obtain ⟨happ, -⟩ := matchYear_append hmy
      have hylen := matchYear_len hmy
      have hrne : r ≠ [] := by
        intro hre
        rw [happ, hre] at hlen
        simp at hlen
        omega
      obtain ⟨x, r', hr⟩ := List.exists_cons_of_ne_nil hrne
      have hx : isDigitC x = true := by
        apply hd
        rw [happ, hr]
        simp
      rw [hr]
      simp [matchSuffix_digit r' hx]

theorem tryDateMatch_digits {ds : List Char} (hd : ∀ c ∈ ds, isDigitC c = true)
    (hlen : 5 ≤ ds.length) : tryDateMatch ds = none := by
  obtain ⟨a, tl, hds⟩ : ∃ a tl, ds = a :: tl := by
    cases ds with
    | nil => simp at hlen
    | cons a tl => exact ⟨a, tl, rfl⟩
  have ha : isDigitC a = true := hd a (by rw [hds]; simp)
  have hA1 : matchA1 ds = none := by
    unfold matchA1
    rw [hds, tryADyear_digit tl ha, ← hds, matchYS_digits hd hlen]
    rfl
  have hA2 : matchA2 ds = none := by
    obtain ⟨b, tl', htl⟩ : ∃ b tl', tl = b :: tl' := by
      cases tl with
      | nil => rw [hds] at hlen; simp at hlen
      | cons b tl' => exact ⟨b, tl', rfl⟩
    have hb : isDigitC b = true := hd b (by rw [hds, htl]; simp)
    have htl'ne : ∃ x tx, tl' = x :: tx := by
      cases tl' with
      | nil => rw [hds, htl] at hlen; simp at hlen
      | cons x tx => exact ⟨x, tx, rfl⟩
    obtain ⟨x, tx, htx⟩ := htl'ne
    have hx : isDigitC x = true := hd x (by rw [hds, htl, htx]; simp)
    rw [hds, htl]
    simp only [matchA2, ha, hb, Bool.and_self, if_pos]
    have hoc1 : matchOrdCent tl' = none := by
      unfold matchOrdCent
      rw [htx, matchOrd_digit tx hx]
    have hoc2 : matchOrdCent (b :: tl') = none := by
      unfold matchOrdCent
      rw [matchOrd_digit tl' hb]
    rw [hoc1, hoc2]
  unfold tryDateMatch
  rw [hA1, hA2]
  rfl

theorem dateSpans_digits {ds : List Char} (hd : ∀ c ∈ ds, isDigitC c = true)
    (hlen : 5 ≤ ds.length) : dateSpans ds = [Span.text ds] :=
  dateSpans_word_noMatch ds (fun c hc => digit_word (hd c hc))
    (tryDateMatch_digits hd hlen)

theorem y3_head {a b c : Char} (h : y3 a b c = true) : isDigitC a = true := by
  unfold y3 at h
  simp only [Bool.and_eq_true] at h
  have h4 := of_decide_eq_true h.1.1
  have hl : 52 ≤ a.toNat := Char.le_def.mp h4.1
  have hr : a.toNat ≤ 57 := Char.le_def.mp h4.2
  have hcases : a.toNat = 52 ∨ a.toNat = 53 ∨ a.toNat = 54 ∨ a.toNat = 55 ∨
      a.toNat = 56 ∨ a.toNat = 57 := by omega
  rcases hcases with hc | hc | hc | hc | hc | hc
  · rw [show a = '4' from Char.ext (UInt32.ext hc)]; decide
  · rw [show a = '5' from Char.ext (UInt32.ext hc)]; decide
  · rw [show a = '6' from Char.ext (UInt32.ext hc)]; decide
  · rw [show a = '7' from Char.ext (UInt32.ext hc)]; decide
  · rw [show a = '8' from Char.ext (UInt32.ext hc)]; decide
  · rw [show a = '9' from Char.ext (UInt32.ext hc)]; decide

theorem y4_head {a b c d : Char} (h : y4 a b c d = true) : isDigitC a = true := by
  unfold y4 at h
  simp only [Bool.or_eq_true, Bool.and_eq_true, beq_iff_eq] at h
  rcases h with ⟨⟨⟨h1, -⟩, -⟩, -⟩ | ⟨⟨⟨h1, -⟩, -⟩, -⟩
  · rw [h1]; decide
  · rw [h1]; decide

theorem matchYear_ext {ys : List Char} (h : matchYear ys = some (ys, [])) :
    (∀ rest, matchYear (ys ++ rest) = some (ys, rest)) ∧
    ∃ a tl, ys = a :: tl ∧ isDigitC a = true := by
  rcases ys with _ | ⟨a, _ | ⟨b, _ | ⟨c, _ | ⟨d, rest0⟩⟩⟩⟩
  · simp [matchYear] at h
  · simp [matchYear] at h
  · simp [matchYear] at h
  · simp only [matchYear] at h
    split_ifs at h with h3
    refine ⟨?_, a, [b, c], rfl, y3_head h3⟩
    intro rest
    cases rest with
    | nil => simp [matchYear, h3]
    | cons e rest' => simp [matchYear, h3]
  · simp only [matchYear] at h
    split_ifs at h with h3 h4
    · simp at h
    · simp only [Option.some.injEq, Prod.mk.injEq] at h
      have hr0 : rest0 = [] := h.2
      refine ⟨?_, a, [b, c, d], by simp [hr0], y4_head h4⟩
      intro rest
      have hys : (a :: b :: c :: d :: rest0) ++ rest = a :: b :: c :: d :: rest := by
        simp [hr0]
      rw [hys]
      simp [matchYear, h3, h4, hr0]

theorem tryADyear_AD (rest : List Char) :
    tryADyear ('A' :: 'D' :: rest) =
      match matchYS (rest.dropWhile isSpaceC) with
      | some (m, r') => some ('A' :: 'D' :: (rest.takeWhile isSpaceC ++ m), r')
      | none => none := rfl

theorem tryDate_positive {ys sfx : List Char}
    (hys : matchYear ys = some (ys, []))
    (hsfx : matchSuffix sfx = some (sfx, [])) :
    tryDateMatch (ys ++ sfx) = some (ys ++ sfx, [])
    ∧ tryDateMatch ('A' :: 'D' :: (ys ++ sfx)) = some ('A' :: 'D' :: (ys ++ sfx), [])
    ∧ tryDateMatch ('A' :: 'D' :: ' ' :: (ys ++ sfx)) =
        some ('A' :: 'D' :: ' ' :: (ys ++ sfx), []) := by
  obtain ⟨hext, a, tl, hshape, ha⟩ := matchYear_ext hys
  have hYS : matchYS (ys ++ sfx) = some (ys ++ sfx, []) := by
    unfold matchYS
    rw [hext sfx]
    simp [hsfx]
  have hdw : (ys ++ sfx).dropWhile isSpaceC = ys ++ sfx := by
    rw [hshape, List.cons_append]
    simp [List.dropWhile_cons, digit_not_space ha]
  have htw : (ys ++ sfx).takeWhile isSpaceC = [] := by
    rw [hshape, List.cons_append]
    simp [List.takeWhile_cons, digit_not_space ha]
  refine ⟨?_, ?_, ?_⟩
  · have hAD : tryADyear (ys ++ sfx) = none := by
      rw [hshape, List.cons_append]
      exact tryADyear_digit _ ha
    unfold tryDateMatch matchA1
    rw [hAD, hYS]
    rfl
  · have : tryADyear ('A' :: 'D' :: (ys ++ sfx)) =
        some ('A' :: 'D' :: (ys ++ sfx), []) := by
      rw [tryADyear_AD, hdw, hYS, htw]
      rfl
    unfold tryDateMatch matchA1
    rw [this]
    rfl
  · have hdw' : (' ' :: (ys ++ sfx)).dropWhile isSpaceC = ys ++ sfx := by
      rw [List.dropWhile_cons]
      simp [isSpaceC, hdw]
    have htw' : (' ' :: (ys ++ sfx)).takeWhile isSpaceC = [' '] := by
      rw [List.takeWhile_cons]
      simp [isSpaceC, htw]
    have : tryADyear ('A' :: 'D' :: ' ' :: (ys ++ sfx)) =
        some ('A' :: 'D' :: ' ' :: (ys ++ sfx), []) := by
      rw [tryADyear_AD, hdw', hYS, htw']
      rfl
    unfold tryDateMatch matchA1
    rw [this]
    rfl

theorem dateSpans_posToken {tok : List Char} (h : tryDateMatch tok = some (tok, [])) :
    dateSpans tok = [Span.text [], Span.date tok, Span.text []] := by
  cases tok with
  | nil =>
      exact absurd h (by simp [tryDateMatch, matchA1, matchA2, tryADyear, matchYS, matchYear])
  | cons c rest => exact dateSpans_full_match h

/-! ## Cache layer (`getCacheKey`, `saveToCache`, `getFromCache`)

`localStorage` stores strings; `saveToCache` writes `JSON.stringify(data)` and
`getFromCache` applies `JSON.parse` to what it reads.  Since
`JSON.parse(JSON.stringify(v))` is deep-equal to `v` for every
JSON-serializable value (the platform contract for the `JSON` built-ins, which
are external to this repository), the store is modelled as holding the parsed
values directly. -/

/-- JSON values: the domain of JSON-serializable data. -/
inductive Json where
  | null
  | bool (b : Bool)
  | num (n : Int)
  | str (s : List Char)
  | arr (xs : List Json)
  | obj (fields : List (List Char × Json))

/-- The browser `localStorage`, as an association list (newest entry first —
`setItem` shadows any previous binding of the key). -/
def Store := List (List Char × Json)

/-- `saveToCache(key, data)`: `localStorage.setItem(key, JSON.stringify(data))`.
(The quota-exceeded failure is caught, logged and swallowed inside
`saveToCache` itself; the environment-failure branch is outside the model.) -/
def saveToCache (st : Store) (key : List Char) (data : Json) : Store :=
  (key, data) :: st

/-- `getFromCache(key)`:
`const item = localStorage.getItem(key); return item ? JSON.parse(item) : null`.
An absent key gives `none`; a stored value parses back to itself. -/
def getFromCache (st : Store) (key : List Char) : Option Json :=
  match st.find? (fun kv => kv.1 == key) with
  | some kv => some kv.2
  | none => none

/-- The three cache namespaces of `getCacheKey`. -/
inductive CacheNs where
  | era
  | search
  | image
deriving DecidableEq, Repr

/-- The category tag interpolated into the key. -/
def nsTag : CacheNs → List Char
  | .era => ['e', 'r', 'a']
  | .search => ['s', 'e', 'a', 'r', 'c', 'h']
  | .image => ['i', 'm', 'a', 'g', 'e']

/-- The fixed key namespace: `chronos_cache_v1_`. -/
def cachePrefixChars : List Char :=
  ['c', 'h', 'r', 'o', 'n', 'o', 's', '_', 'c', 'a', 'c', 'h', 'e', '_', 'v', '1', '_']

/-- A character kept by the sanitizer `id.replace(/[^a-zA-Z0-9-_]/g, '')`. -/
def safeChar (c : Char) : Bool :=
  decide (('a' ≤ c ∧ c ≤ 'z') ∨ ('A' ≤ c ∧ c ≤ 'Z') ∨ ('0' ≤ c ∧ c ≤ '9'))
    || c == '-' || c == '_'

/-- `getCacheKey(type, id)` = `` `${CACHE_PREFIX}${type}_${id.replace(/[^a-zA-Z0-9-_]/g, '')}` ``. -/
def getCacheKey (ty : CacheNs) (id : List Char) : List Char :=
  cachePrefixChars ++ nsTag ty ++ '_' :: id.filter safeChar

/-- JS `String.prototype.trim` (ASCII whitespace). -/
def trimStr (cs : List Char) : List Char :=
  ((cs.dropWhile isSpaceC).reverse.dropWhile isSpaceC).reverse

/-- The raw id the search fetch derives before keying: `query.trim().toLowerCase()`. -/
def searchNormalize (q : List Char) : List Char := (trimStr q).map Char.toLower

/-- The cache key of `generateSearchArticle`:
`getCacheKey('search', query.trim().toLowerCase())`. -/
def searchCacheKey (q : List Char) : List Char :=
  getCacheKey .search (searchNormalize q)

/-- `replace(/\s+/g, '_')`: every maximal whitespace run becomes one `_`. -/
def collapseWSAux (prevSpace : Bool) : List Char → List Char
  | [] => []
  | c :: rest =>
      if isSpaceC c then
        if prevSpace then collapseWSAux true rest
        else '_' :: collapseWSAux true rest
      else c :: collapseWSAux false rest

/-- The image-prompt fingerprint of `generateHistoricalIllustration`:
`prompt.substring(0, 50).replace(/\s+/g, '_') + '_' + prompt.length`. -/
def promptKey (prompt : List Char) : List Char :=
  collapseWSAux false (prompt.take 50) ++ '_' :: natChars prompt.length

/-! ## Fetch orchestration (`generateHistoryArticle`, `generateSearchArticle`,
`generateHistoricalIllustration`) -/

/-- The error conditions the fetch pipeline can raise or re-raise. -/
inductive FetchErr where
  | apiKeyMissing   -- `getClient`: "API Key is missing"
  | network         -- the `generateContent` call itself rejected
  | noContent       -- "No content generated" (absent/empty `response.text`)
  | parseError      -- `JSON.parse(response.text)` threw
  | noImage         -- "No image generated" (no `inlineData` part)
deriving DecidableEq, Repr

/-- The text of an AI response: a string either parses as JSON or does not. -/
inductive RespText where
  | jsonText (j : Json)
  | junkText

/-- `JSON.parse` on a response text. -/
def jsonParse : RespText → Option Json
  | .jsonText j => some j
  | .junkText => none

/-- JS truthiness of a parsed JSON value (`if (cached)`): `null`, `false`,
`0` and the empty string are falsy; objects, arrays and everything else are
truthy. -/
def jsTruthy : Json → Bool
  | .null => false
  | .bool b => b
  | .num n => n != 0
  | .str s => !s.isEmpty
  | .arr _ => true
  | .obj _ => true

/-- The `try` block shared by `generateHistoryArticle` and
`generateSearchArticle`: require the credential (`getClient`), await the live
call, require truthy `response.text`, `JSON.parse` it — and return the parsed
value as-is: the `as HistoryContent` cast performs no runtime validation. -/
def liveAttempt (apiKey : Bool) (live : Except FetchErr (Option RespText)) :
    Except FetchErr Json :=
  if !apiKey then .error .apiKeyMissing
  else
    match live with
    | .error e => .error e
    | .ok none => .error .noContent
    | .ok (some t) =>
        match jsonParse t with
        | some j => .ok j
        | none => .error .parseError

/-- A part of an image response, possibly carrying inline base64 data. -/
structure RespPart where
  inlineData : Option (List Char)
deriving DecidableEq, Repr

/-- The renderer's loop over `response.candidates?.[0]?.content?.parts`. -/
def findInline : List RespPart → Option (List Char)
  | [] => none
  | p :: rest =>
      match p.inlineData with
      | some d => some d
      | none => findInline rest

/-- `"data:image/png;base64,"`. -/
def dataUrlHead : List Char :=
  ['d', 'a', 't', 'a', ':', 'i', 'm', 'a', 'g', 'e', '/', 'p', 'n', 'g', ';',
   'b', 'a', 's', 'e', '6', '4', ',']

/-- The `try` block of `generateHistoricalIllustration`: credential, live
call, first `inlineData` part made into a data URL; no part is a failure. -/
def imageAttempt (apiKey : Bool) (live : Except FetchErr (List RespPart)) :
    Except FetchErr Json :=
  if !apiKey then .error .apiKeyMissing
  else
    match live with
    | .error e => .error e
    | .ok parts =>
        match findInline parts with
        | some d => .ok (.str (dataUrlHead ++ d))
        | none => .error .noImage

/-- The `catch` pattern shared verbatim by all three fetch functions: on
success, write-through to the cache and return; on any failure, try the cache
(`if (cached)` — a JS truthiness test on the parsed value) and re-raise the
original error on a miss. -/
def withCacheFallback (attempt : Except FetchErr Json) (st : Store)
    (key : List Char) : Except FetchErr Json × Store :=
  match attempt with
  | .ok content => (.ok content, saveToCache st key content)
  | .error e =>
      match getFromCache st key with
      | some cached => if jsTruthy cached then (.ok cached, st) else (.error e, st)
      | none => (.error e, st)

/-- `generateHistoryArticle` / `generateSearchArticle` (they differ only in
prompt and cache key, which the caller supplies). -/
def fetchArticle (apiKey : Bool) (live : Except FetchErr (Option RespText))
    (st : Store) (key : List Char) : Except FetchErr Json × Store :=
  withCacheFallback (liveAttempt apiKey live) st key

/-- `generateHistoricalIllustration` (the caller supplies the prompt key). -/
def fetchImage (apiKey : Bool) (live : Except FetchErr (List RespPart))
    (st : Store) (key : List Char) : Except FetchErr Json × Store :=
  withCacheFallback (imageAttempt apiKey live) st key

/-- First-occurrence field lookup in a JSON object. -/
def objGet (fields : List (List Char × Json)) (k : List Char) : Option Json :=
  match fields.find? (fun f => f.1 == k) with
  | some f => some f.2
  | none => none

/-- Whether an optional field is present and a string. -/
def isStrField : Option Json → Bool
  | some (.str _) => true
  | _ => false

/-- A `sections` element per the response schema: `{heading, body}`, both
required strings. -/
def isSectionShape : Json → Bool
  | .obj fs =>
      isStrField (objGet fs ['h', 'e', 'a', 'd', 'i', 'n', 'g'])
        && isStrField (objGet fs ['b', 'o', 'd', 'y'])
  | _ => false

/-- A `glossary` element per the response schema: `{term, definition}`. -/
def isGlossShape : Json → Bool
  | .obj fs =>
      isStrField (objGet fs ['t', 'e', 'r', 'm'])
        && isStrField (objGet fs ['d', 'e', 'f', 'i', 'n', 'i', 't', 'i', 'o', 'n'])
  | _ => false

/-- The required Lesson shape, per `RESPONSE_SCHEMA` (required:
`title, subtitle, sections, academicContext, imagePrompt, glossary`) and the
`HistoryContent` type: the string fields are strings, `sections` is an array
of well-shaped sections, `glossary` an array of well-shaped entries. -/
def isLessonShape : Json → Bool
  | .obj fs =>
      isStrField (objGet fs ['t', 'i', 't', 'l', 'e'])
        && isStrField (objGet fs ['s', 'u', 'b', 't', 'i', 't', 'l', 'e'])
        && isStrField (objGet fs
            ['a', 'c', 'a', 'd', 'e', 'm', 'i', 'c', 'C', 'o', 'n', 't', 'e', 'x', 't'])
        && isStrField (objGet fs
            ['i', 'm', 'a', 'g', 'e', 'P', 'r', 'o', 'm', 'p', 't'])
        && (match objGet fs ['s', 'e', 'c', 't', 'i', 'o', 'n', 's'] with
            | some (.arr xs) => xs.all isSectionShape
            | _ => false)
        && (match objGet fs ['g', 'l', 'o', 's', 's', 'a', 'r', 'y'] with
            | some (.arr xs) => xs.all isGlossShape
            | _ => false)
  | _ => false

/-! ## Claims C1, C3, C7 -/

/-- C1 (counterexample): the live call fails and the cache *does* contain an
entry under the derived key — the JSON value `null` — yet the operation
re-raises the error instead of returning the cached value: `if (cached)`
tests JS truthiness, not presence. -/
theorem c1_cache_entry_counterexample :
    getFromCache [(getCacheKey .era ['x'], Json.null)] (getCacheKey .era ['x'])
      = some Json.null
    ∧ (fetchArticle true (.error .network)
        [(getCacheKey .era ['x'], Json.null)] (getCacheKey .era ['x'])).1
      = .error .network := by
  constructor
  · rfl
  · rfl

/-- C1 (amended): for each of the three fetch operations — all instances of
the same `withCacheFallback` pattern — if the live attempt fails and the
cache holds a JS-truthy entry under the key (every Lesson object and every
non-empty URL string is truthy), the cached value is returned and the failure
absorbed; a falsy entry (`null`/`false`/`0`/`""`) is treated like a miss; and
an error is raised exactly when the live attempt failed and no truthy entry
was found, the raised error being the original failure. -/
theorem c1_fallback (apiKey : Bool) (live : Except FetchErr (Option RespText))
    (liveI : Except FetchErr (List RespPart)) (st : Store) (key : List Char) :
    fetchArticle apiKey live st key = withCacheFallback (liveAttempt apiKey live) st key
    ∧ fetchImage apiKey liveI st key = withCacheFallback (imageAttempt apiKey liveI) st key
    ∧ (∀ (attempt : Except FetchErr Json) (e : FetchErr), attempt = .error e →
        ((∀ c, getFromCache st key = some c → jsTruthy c = true →
            withCacheFallback attempt st key = (.ok c, st))
         ∧ (getFromCache st key = none →
            withCacheFallback attempt st key = (.error e, st))
         ∧ (∀ e' st', withCacheFallback attempt st key = (.error e', st') →
            e' = e ∧ st' = st ∧
            (getFromCache st key = none ∨
             ∃ c, getFromCache st key = some c ∧ jsTruthy c = false)))) := by
  refine ⟨rfl, rfl, ?_⟩
  rintro attempt e rfl
  refine ⟨?_, ?_, ?_⟩
  · intro c hc ht
    unfold withCacheFallback
    simp [hc, ht]
  · intro hc
    unfold withCacheFallback
    simp [hc]
  · intro e' st' h
    unfold withCacheFallback at h
    cases hc : getFromCache st key with
    | none =>
        simp only [hc, Prod.mk.injEq, Except.error.injEq] at h
        exact ⟨h.1.symm, h.2.symm, Or.inl rfl⟩
    | some c =>
        cases ht : jsTruthy c with
        | true => simp [hc, ht] at h
        | false =>
            simp only [hc, ht, Bool.false_eq_true, if_false, Prod.mk.injEq,
              Except.error.injEq] at h
            exact ⟨h.1.symm, h.2.symm, Or.inr ⟨c, rfl, ht⟩⟩

theorem c1_fallback_witness :
    withCacheFallback (.error .network) [(['k'], Json.str ['v'])] ['k']
      = (.ok (Json.str ['v']), [(['k'], Json.str ['v'])])
    ∧ withCacheFallback (.error .network) [] ['k'] = (.error .network, []) := by
  constructor
  · exact ((c1_fallback true (.error .network) (.error .network)
      [(['k'], Json.str ['v'])] ['k']).2.2 (.error .network) .network rfl).1
      (Json.str ['v']) rfl rfl
  · exact ((c1_fallback true (.error .network) (.error .network) [] ['k']).2.2
      (.error .network) .network rfl).2.1 rfl

/-- C3 (counterexample): a response whose text parses as JSON but violates
the required Lesson shape (here the empty object `{}`) is *not* treated as a
generation failure: `JSON.parse(response.text) as HistoryContent` performs no
runtime validation, so the partially-typed object is cached and returned as a
success. -/
theorem c3_no_validation_counterexample :
    isLessonShape (Json.obj []) = false
    ∧ fetchArticle true (.ok (some (.jsonText (Json.obj []))))
        [] (getCacheKey .era ['x'])
      = (.ok (Json.obj []), [(getCacheKey .era ['x'], Json.obj [])]) := by
  constructor
  · rfl
  · rfl

/-- C3 (amended): the fetch operations treat only an absent/empty response
text and a JSON parse failure as generation failures feeding the
cache-fallback path; a response text that parses as JSON is cached and
returned as-is, whatever its shape — no Lesson-shape validation is
performed. -/
theorem c3_parse_only (st : Store) (key : List Char) :
    (∀ j, fetchArticle true (.ok (some (.jsonText j))) st key
        = (.ok j, saveToCache st key j))
    ∧ liveAttempt true (.ok none) = .error .noContent
    ∧ liveAttempt true (.ok (some .junkText)) = .error .parseError := by
  refine ⟨fun j => rfl, rfl, rfl⟩

/-- C7: a `put` (the write-through `saveToCache`) under a derived key,
immediately followed by `getFromCache` with the same namespace and
identifier, returns a value deep-equal to the stored one, for every
JSON-serializable value and every prior store state. -/
theorem c7_roundtrip (ty : CacheNs) (id : List Char) (v : Json) (st : Store) :
    getFromCache (saveToCache st (getCacheKey ty id) v) (getCacheKey ty id)
      = some v := by
  unfold getFromCache saveToCache
  simp [List.find?_cons]

/-! ## Claims C8, C9: cache-key derivation -/

/-- C8: every derived key is exactly the fixed prefix, the category tag, an
underscore, and the identifier with all characters outside `[A-Za-z0-9_-]`
stripped; hence every character of the key is in the safe set; and two search
queries that agree after the documented trim-and-lowercase normalization
derive the same cache key. -/
theorem c8_sanitization (ty : CacheNs) (id q1 q2 : List Char)
    (hq : searchNormalize q1 = searchNormalize q2) :
    getCacheKey ty id = cachePrefixChars ++ nsTag ty ++ '_' :: id.filter safeChar
    ∧ (∀ c ∈ getCacheKey ty id, safeChar c = true)
    ∧ searchCacheKey q1 = searchCacheKey q2 := by
  refine ⟨rfl, ?_, by rw [searchCacheKey, hq, searchCacheKey]⟩
  intro c hc
  unfold getCacheKey at hc
  simp only [List.mem_append, List.mem_cons] at hc
  rcases hc with (hc | hc) | hc | hc
  · revert hc
    have : ∀ c ∈ cachePrefixChars, safeChar c = true := by decide
    exact this c
  · revert hc
    have : ∀ c ∈ nsTag ty, safeChar c = true := by cases ty <;> decide
    exact this c
  · subst hc; decide
  · exact (List.mem_filter.mp hc).2

theorem c8_sanitization_witness :
    getCacheKey .search [' ', 'S', 'h', 'i', 'f', 't', '!', ' ']
      = cachePrefixChars ++ nsTag .search
          ++ '_' :: [' ', 'S', 'h', 'i', 'f', 't', '!', ' '].filter safeChar
    ∧ (∀ c ∈ getCacheKey .search [' ', 'S', 'h', 'i', 'f', 't', '!', ' '],
        safeChar c = true)
    ∧ searchCacheKey [' ', 'S', 'h', 'i', 'f', 't', ' ']
        = searchCacheKey ['s', 'h', 'i', 'f', 't'] :=
  c8_sanitization .search [' ', 'S', 'h', 'i', 'f', 't', '!', ' ']
    [' ', 'S', 'h', 'i', 'f', 't', ' '] ['s', 'h', 'i', 'f', 't'] (by decide)

/-- C9 (counterexample): key derivation is *not* collision-resistant: the
distinct era identifiers `"a b"` and `"ab"` derive the same key (the space is
stripped), and two distinct image prompts sharing their first 50 characters
and their length derive the same fingerprint. -/
theorem c9_collision_counterexample :
    getCacheKey .era ['a', ' ', 'b'] = getCacheKey .era ['a', 'b']
    ∧ (['a', ' ', 'b'] : List Char) ≠ ['a', 'b']
    ∧ promptKey (List.replicate 50 'x' ++ ['a'])
        = promptKey (List.replicate 50 'x' ++ ['b'])
    ∧ List.replicate 50 'x' ++ ['a'] ≠ List.replicate 50 'x' ++ ['b'] := by
  refine ⟨by decide, by decide, by decide, by decide⟩

/-- C9 (amended): key derivation is deterministic (a pure function of the
category and identifier), and within a category two identifiers derive the
same key exactly when their sanitized forms coincide — so identifiers
differing only in stripped characters collide; likewise two image prompts
sharing whitespace-collapsed 50-character prefix and length share a
fingerprint. -/
theorem c9_key_characterization (ty : CacheNs) (id1 id2 p1 p2 : List Char) :
    (getCacheKey ty id1 = getCacheKey ty id2 ↔
      id1.filter safeChar = id2.filter safeChar)
    ∧ (collapseWSAux false (p1.take 50) = collapseWSAux false (p2.take 50) →
        p1.length = p2.length → promptKey p1 = promptKey p2) := by
  constructor
  · constructor
    · intro h
      unfold getCacheKey at h
      have h1 := List.append_cancel_left h
      simpa using h1
    · intro h
      unfold getCacheKey
      rw [h]
  · intro h1 h2
    unfold promptKey
    rw [h1, h2]

theorem c9_key_characterization_witness :
    (getCacheKey .era ['a', '!'] = getCacheKey .era ['a', '?'] ↔
      ['a', '!'].filter safeChar = ['a', '?'].filter safeChar)
    ∧ promptKey ['a', ' ', 'b'] = promptKey ['a', '\t', 'b'] :=
  ⟨(c9_key_characterization .era ['a', '!'] ['a', '?'] ['a', ' ', 'b']
      ['a', '\t', 'b']).1,
   (c9_key_characterization .era ['a', '!'] ['a', '?'] ['a', ' ', 'b']
      ['a', '\t', 'b']).2 (by decide) (by decide)⟩

/-! ## Claim C4: the selection race and the `isMounted` guard

The App component issues one data-fetch effect per change of
`[selectedEraId, searchQuery]`.  Each effect run closes over its own
`isMounted` flag; the effect's cleanup — executed by React before the next
run (and on unmount) — sets the flag to `false`, and the effect applies its
result with `setContent(data)` only `if (isMounted)`.  The model below keeps
the list of effect runs with their flags, the current selection, and the
content state tagged (as ghost provenance) with the selection whose fetch
produced it. -/

/-- A selection: timeline era (`selectedEraId`) or search (`searchQuery`). -/
inductive Selection where
  | eraSel (id : List Char)
  | searchSel (q : List Char)
deriving DecidableEq, Repr

/-- One run of the data effect: its identity, the selection it fetches for,
and its `isMounted` flag. -/
structure EffectRun where
  runId : Nat
  sel : Selection
  alive : Bool
deriving DecidableEq, Repr

/-- App state: fresh effect ids, the current selection, all effect runs so
far, and the displayed `content` (tagged with the producing selection). -/
structure AppSys where
  nextId : Nat
  current : Selection
  effects : List EffectRun
  content : Option (Selection × Json)

/-- Cleanup of previous effect runs: each run's `isMounted` becomes false. -/
def killAll (es : List EffectRun) : List EffectRun :=
  es.map (fun e => { e with alive := false })

def findRun (es : List EffectRun) (i : Nat) : Option EffectRun :=
  es.find? (fun e => e.runId == i)

/-- The two event kinds that drive the state: a selection change
(`handleSelectEra` / `handleSearch` / related-topic click — sets the new
selection, runs the previous effect's cleanup, starts a new effect run), and
the asynchronous resolution of run `i`'s fetch with `data` (applied only if
that run is still mounted; otherwise silently discarded). -/
inductive AppEvent where
  | select (s : Selection)
  | resolve (i : Nat) (data : Json)

def step (s : AppSys) : AppEvent → AppSys
  | .select sel =>
      { nextId := s.nextId + 1
        current := sel
        effects := ⟨s.nextId, sel, true⟩ :: killAll s.effects
        content := s.content }
  | .resolve i data =>
      match findRun s.effects i with
      | some e => if e.alive then { s with content := some (e.sel, data) } else s
      | none => s

/-- Initial mount: `selectedEraId = EraId.INTRO`, one mounted effect run. -/
def initSys : AppSys :=
  { nextId := 1
    current := .eraSel ['i', 'n', 't', 'r', 'o']
    effects := [⟨0, .eraSel ['i', 'n', 't', 'r', 'o'], true⟩]
    content := none }

/-- The state after a sequence of events. -/
def runApp (evs : List AppEvent) : AppSys := evs.foldl step initSys

/-- The mounted-run invariant: a still-mounted effect run always belongs to
the currently active selection (a selection change unmounts every older
run). -/
def MountedInv (s : AppSys) : Prop :=
  ∀ e ∈ s.effects, e.alive = true → e.sel = s.current

theorem step_inv {s : AppSys} (hs : MountedInv s) (ev : AppEvent) :
    MountedInv (step s ev) := by
  cases ev with
  | select sel =>
      intro e he ha
      simp only [step, List.mem_cons] at he
      rcases he with he | he
      · subst he; rfl
      · unfold killAll at he
        simp only [List.mem_map] at he
        obtain ⟨e0, -, he0⟩ := he
        rw [← he0] at ha
        simp at ha
  | resolve i data =>
      intro e he ha
      simp only [step] at he ⊢
      rcases hf : findRun s.effects i with _ | e0
      · simp only [hf] at he ⊢
        exact hs e he ha
      · simp only [hf] at he ⊢
        by_cases hal : e0.alive = true
        · simp only [hal, if_true] at he ⊢
          exact hs e he ha
        · simp only [hal, if_false, Bool.false_eq_true] at he ⊢
          exact hs e he ha

theorem runApp_inv : ∀ (evs : List AppEvent), MountedInv (runApp evs) := by
  have hinit : MountedInv initSys := by
    intro e he _
    simp only [initSys, List.mem_singleton] at he
    subst he
    rfl
  intro evs
  unfold runApp
  generalize initSys = s0 at hinit ⊢
  induction evs generalizing s0 with
  | nil => exact hinit
  | cons ev evs ih => exact ih (step s0 ev) (step_inv hinit ev)

/-- C4: results of superseded fetches are never applied — if run `i` is no
longer mounted (its cleanup ran when the selection changed) or unknown, its
resolution leaves the state, in particular the displayed content, unchanged;
and any resolution that *is* applied belongs to a still-mounted run, whose
selection is provably the currently active one, so the displayed content only
ever reflects a result fetched for the selection that was current when it was
applied. -/
theorem c4_selection_race (evs : List AppEvent) (i : Nat) (d : Json) :
    (∀ e, findRun (runApp evs).effects i = some e → e.alive = false →
        step (runApp evs) (.resolve i d) = runApp evs)
    ∧ (findRun (runApp evs).effects i = none →
        step (runApp evs) (.resolve i d) = runApp evs)
    ∧ (∀ e, findRun (runApp evs).effects i = some e → e.alive = true →
        e.sel = (runApp evs).current ∧
        step (runApp evs) (.resolve i d) =
          { runApp evs with content := some ((runApp evs).current, d) }) := by
  refine ⟨?_, ?_, ?_⟩
  · intro e hf ha
    simp only [step, hf, ha, Bool.false_eq_true, if_false]
  · intro hf
    simp only [step, hf]
  · intro e hf ha
    have hsel : e.sel = (runApp evs).current := by
      have hmem : e ∈ (runApp evs).effects := by
        unfold findRun at hf
        exact List.mem_of_find?_eq_some hf
      exact runApp_inv evs e hmem ha
    refine ⟨hsel, ?_⟩
    simp only [step, hf, ha, if_true, hsel]

theorem c4_selection_race_witness :
    step (runApp [.select (.searchSel ['q'])]) (.resolve 0 (Json.str ['x']))
      = runApp [.select (.searchSel ['q'])] :=
  (c4_selection_race [.select (.searchSel ['q'])] 0 (Json.str ['x'])).1
    ⟨0, .eraSel ['i', 'n', 't', 'r', 'o'], false⟩ rfl rfl

/-! ## Claim C5: assembling the classification theorem -/

theorem natCharsAux_fuel : ∀ (f f' n : Nat), n < f → n < f' →
    natCharsAux f n = natCharsAux f' n := by
  intro f
  induction f with
  | zero => intro f' n h _; omega
  | succ f ih =>
      intro f' n hf hf'
      cases f' with
      | zero => omega
      | succ f' =>
          rw [natCharsAux, natCharsAux]
          split_ifs with hn
          · rfl
          · rw [ih f' (n / 10) (by omega) (by omega)]

theorem natChars_small {n : Nat} (h : n < 10) :
    natChars n = [Nat.digitChar n] := by
  rw [natChars, natCharsAux, if_pos h]

theorem natChars_step {n : Nat} (h : 10 ≤ n) :
    natChars n = natChars (n / 10) ++ [Nat.digitChar (n % 10)] := by
  rw [natChars, natCharsAux, if_neg (by omega)]
  rw [natCharsAux_fuel n (n / 10 + 1) (n / 10) (by omega) (by omega)]
  rfl

theorem natChars2 {n : Nat} (h1 : 10 ≤ n) (h2 : n ≤ 99) :
    natChars n = [Nat.digitChar (n / 10), Nat.digitChar (n % 10)] := by
  rw [natChars_step h1, natChars_small (by omega)]
  rfl

theorem natChars3 {n : Nat} (h1 : 100 ≤ n) (h2 : n ≤ 999) :
    natChars n = [Nat.digitChar (n / 100), Nat.digitChar (n / 10 % 10),
      Nat.digitChar (n % 10)] := by
  rw [natChars_step (by omega), natChars2 (by omega) (by omega)]
  rw [Nat.div_div_eq_div_mul]
  rfl

theorem natChars4 {n : Nat} (h1 : 1000 ≤ n) (h2 : n ≤ 9999) :
    natChars n = [Nat.digitChar (n / 1000), Nat.digitChar (n / 100 % 10),
      Nat.digitChar (n / 10 % 10), Nat.digitChar (n % 10)] := by
  rw [natChars_step (by omega), natChars3 (by omega) (by omega)]
  rw [Nat.div_div_eq_div_mul, Nat.div_div_eq_div_mul]
  rfl

theorem dc_y3_hi {m : Nat} (h1 : 4 ≤ m) (h2 : m ≤ 9) :
    decide ('4' ≤ Nat.digitChar m ∧ Nat.digitChar m ≤ '9') = true := by
  interval_cases m <;> decide

theorem dc_y3_lo {m : Nat} (h2 : m ≤ 3) :
    decide ('4' ≤ Nat.digitChar m ∧ Nat.digitChar m ≤ '9') = false := by
  interval_cases m <;> decide

theorem dc_02 {m : Nat} (h : m ≤ 2) :
    decide ('0' ≤ Nat.digitChar m ∧ Nat.digitChar m ≤ '2') = true := by
  interval_cases m <;> decide

theorem dc_02_rev {m : Nat} (h9 : m ≤ 9)
    (h : decide ('0' ≤ Nat.digitChar m ∧ Nat.digitChar m ≤ '2') = true) : m ≤ 2 := by
  interval_cases m <;> revert h <;> decide

theorem dc_eq1 {m : Nat} (h9 : m ≤ 9) (h : Nat.digitChar m = '1') : m = 1 := by
  interval_cases m <;> revert h <;> decide

theorem dc_eq2 {m : Nat} (h9 : m ≤ 9) (h : Nat.digitChar m = '2') : m = 2 := by
  interval_cases m <;> revert h <;> decide

theorem dc_eq0 {m : Nat} (h9 : m ≤ 9) (h : Nat.digitChar m = '0') : m = 0 := by
  interval_cases m <;> revert h <;> decide

/-- Every numeral in 400–2029 is consumed whole by the year matcher. -/
theorem year_range_ok {n : Nat} (h4 : 400 ≤ n) (h2 : n ≤ 2029) :
    matchYear (natChars n) = some (natChars n, []) := by
  by_cases h999 : n ≤ 999
  · rw [natChars3 (by omega) h999]
    have hy3 : y3 (Nat.digitChar (n / 100)) (Nat.digitChar (n / 10 % 10))
        (Nat.digitChar (n % 10)) = true := by
      unfold y3
      rw [dc_y3_hi (by omega) (by omega),
        digitChar_digit (by omega), digitChar_digit (by omega)]
      rfl
    simp [matchYear, hy3]
  · by_cases h1999 : n ≤ 1999
    · rw [natChars4 (by omega) (by omega)]
      have ha : Nat.digitChar (n / 1000) = '1' := by
        rw [show n / 1000 = 1 by omega]
        decide
      have hy3 : y3 (Nat.digitChar (n / 1000)) (Nat.digitChar (n / 100 % 10))
          (Nat.digitChar (n / 10 % 10)) = false := by
        unfold y3
        rw [ha]
        rfl
      have hy4 : y4 (Nat.digitChar (n / 1000)) (Nat.digitChar (n / 100 % 10))
          (Nat.digitChar (n / 10 % 10)) (Nat.digitChar (n % 10)) = true := by
        have hdb : isDigitC (Nat.digitChar (n / 100 % 10)) = true :=
          digitChar_digit (by omega)
        have hdc : isDigitC (Nat.digitChar (n / 10 % 10)) = true :=
          digitChar_digit (by omega)
        have hdd : isDigitC (Nat.digitChar (n % 10)) = true :=
          digitChar_digit (by omega)
        unfold y4
        rw [ha, hdb, hdc, hdd]
        rfl
      simp [matchYear, hy3, hy4]
    · rw [natChars4 (by omega) (by omega)]
      have ha : Nat.digitChar (n / 1000) = '2' := by
        rw [show n / 1000 = 2 by omega]
        decide
      have hb : Nat.digitChar (n / 100 % 10) = '0' := by
        rw [show n / 100 % 10 = 0 by omega]
        decide
      have hy3 : y3 (Nat.digitChar (n / 1000)) (Nat.digitChar (n / 100 % 10))
          (Nat.digitChar (n / 10 % 10)) = false := by
        unfold y3
        rw [ha]
        rfl
      have hy4 : y4 (Nat.digitChar (n / 1000)) (Nat.digitChar (n / 100 % 10))
          (Nat.digitChar (n / 10 % 10)) (Nat.digitChar (n % 10)) = true := by
        have hdc : isDigitC (Nat.digitChar (n / 10 % 10)) = true :=
          digitChar_digit (by omega)
        have hdd : isDigitC (Nat.digitChar (n % 10)) = true :=
          digitChar_digit (by omega)
        unfold y4
        rw [ha, hb, dc_02 (by omega), hdc, hdd]
        rfl
      simp [matchYear, hy3, hy4]

theorem matchOrd_digits {ds : List Char} (hd : ∀ c ∈ ds, isDigitC c = true) :
    matchOrd ds = none := by
  cases ds with
  | nil => rfl
  | cons a tl => exact matchOrd_digit tl (hd a (by simp))

theorem matchA2_digits {ds : List Char} (hd : ∀ c ∈ ds, isDigitC c = true) :
    matchA2 ds = none := by
  cases ds with
  | nil => rfl
  | cons a tl =>
      cases tl with
      | nil => rfl
      | cons b tl' =>
          have ha : isDigitC a = true := hd a (by simp)
          have hb : isDigitC b = true := hd b (by simp)
          have h1 : matchOrdCent tl' = none := by
            unfold matchOrdCent
            rw [matchOrd_digits (fun c hc => hd c (by simp [hc]))]
          have h2 : matchOrdCent (b :: tl') = none := by
            unfold matchOrdCent
            rw [matchOrd_digits (fun c hc => hd c (by simp at hc; simp [hc]))]
          simp only [matchA2, ha, hb, Bool.and_self, if_pos, h1, h2]

/-- An all-digit token where a year match, if any, leaves a non-empty (digit)
remainder never matches the date regex at position 0. -/
theorem tryDateMatch_digits_gen {ds : List Char}
    (hd : ∀ c ∈ ds, isDigitC c = true)
    (hy : ∀ y r, matchYear ds = some (y, r) → r ≠ []) :
    tryDateMatch ds = none := by
  have hYS : matchYS ds = none := by
    unfold matchYS
    cases hmy : matchYear ds with
    | none => rfl
    | some p =>
        obtain ⟨y, r⟩ := p
        obtain ⟨happ, -⟩ := matchYear_append hmy
        obtain ⟨x, tx, hr⟩ := List.exists_cons_of_ne_nil (hy y r hmy)
        have hx : isDigitC x = true := by
          apply hd
          rw [happ, hr]
          simp
        rw [hr]
        simp [matchSuffix_digit tx hx]
  have hAD : tryADyear ds = none := by
    cases ds with
    | nil => rfl
    | cons a tl => exact tryADyear_digit tl (hd a (by simp))
  unfold tryDateMatch matchA1
  rw [hAD, hYS, matchA2_digits hd]
  rfl

/-- No numeral below 400 and no numeral above 2029 (below 10000) matches the
date regex at position 0. -/
theorem tryDate_small_none {n : Nat} (h : n < 10000) (hout : n < 400 ∨ 2029 < n) :
    tryDateMatch (natChars n) = none := by
  apply tryDateMatch_digits_gen (fun c hc => natChars_digits hc)
  intro y r hmy
  rcases hout with hlow | hhigh
  · by_cases h10 : n < 10
    · rw [natChars_small h10] at hmy
      simp [matchYear] at hmy
    · by_cases h100 : n < 100
      · rw [natChars2 (by omega) (by omega)] at hmy
        simp [matchYear] at hmy
      · rw [natChars3 (by omega) (by omega)] at hmy
        have hy3 : y3 (Nat.digitChar (n / 100)) (Nat.digitChar (n / 10 % 10))
            (Nat.digitChar (n % 10)) = false := by
          unfold y3
          rw [dc_y3_lo (by omega)]
          rfl
        simp [matchYear, hy3] at hmy
  · rw [natChars4 (by omega) (by omega)] at hmy
    by_cases hy3 : y3 (Nat.digitChar (n / 1000)) (Nat.digitChar (n / 100 % 10))
        (Nat.digitChar (n / 10 % 10)) = true
    · simp only [matchYear, hy3, if_pos] at hmy
      simp only [Option.some.injEq, Prod.mk.injEq] at hmy
      rw [← hmy.2]
      simp
    · have hy4 : y4 (Nat.digitChar (n / 1000)) (Nat.digitChar (n / 100 % 10))
          (Nat.digitChar (n / 10 % 10)) (Nat.digitChar (n % 10)) = false := by
        by_contra hy4t
        rw [Bool.not_eq_false] at hy4t
        unfold y4 at hy4t
        simp only [Bool.or_eq_true, Bool.and_eq_true, beq_iff_eq] at hy4t
        rcases hy4t with ⟨⟨⟨ha, -⟩, -⟩, -⟩ | ⟨⟨⟨ha, hb⟩, hc⟩, -⟩
        · have := dc_eq1 (m := n / 1000) (by omega) ha
          omega
        · have ha2 := dc_eq2 (m := n / 1000) (by omega) ha
          have hb0 := dc_eq0 (m := n / 100 % 10) (by omega) hb
          have hc2 := dc_02_rev (m := n / 10 % 10) (by omega) hc
          omega
      simp [matchYear, hy3, hy4] at hmy

/-- The allowed `AD` prefixes of the claim. -/
def adPrefixes : List (List Char) := [[], ['A', 'D'], ['A', 'D', ' ']]

/-- The allowed suffix forms of the claim: nothing, `s`, `BC`, ` BC`, `AD`, ` AD`. -/
def dateSuffixes : List (List Char) :=
  [[], ['s'], ['B', 'C'], [' ', 'B', 'C'], ['A', 'D'], [' ', 'A', 'D']]

theorem dateSuffixes_ok : ∀ sfx ∈ dateSuffixes,
    matchSuffix sfx = some (sfx, []) ∧ '[' ∉ sfx := by decide

theorem natChars_no_lb {n : Nat} : '[' ∉ natChars n := by
  intro hm
  have := natChars_digits hm
  exact absurd this (by decide)

/-- C5: in plain text outside bracket regions, every canonical number token
with value in [400, 2029] — optionally suffixed by `s`, `BC` or `AD`
(with or without a space) and optionally preceded by `AD` — is classified as
a DateMarker carrying the exact matched substring, while every standalone
integer token with value < 400 or > 2029 is left as plain text, never a
DateMarker. -/
theorem c5_date_classification (g : Option (List GlossaryItem)) (n : Nat) :
    (400 ≤ n → n ≤ 2029 →
      ∀ pfx ∈ adPrefixes, ∀ sfx ∈ dateSuffixes,
      renderRichText g (pfx ++ natChars n ++ sfx) =
        [Span.text [], Span.date (pfx ++ natChars n ++ sfx), Span.text []])
    ∧ ((n < 400 ∨ 2029 < n) →
      renderRichText g (natChars n) = [Span.text (natChars n)]) := by
  constructor
  · intro h4 h2 pfx hpfx sfx hsfx
    have hy : matchYear (natChars n) = some (natChars n, []) := year_range_ok h4 h2
    obtain ⟨hsm, hsl⟩ := dateSuffixes_ok sfx hsfx
    obtain ⟨hp1, hp2, hp3⟩ := tryDate_positive hy hsm
    have hnol : ∀ tok : List Char, tok = pfx ++ natChars n ++ sfx → '[' ∉ pfx →
        '[' ∉ tok := by
      intro tok htok hpl hm
      rw [htok] at hm
      simp only [List.mem_append] at hm
      rcases hm with (hm | hm) | hm
      · exact hpl hm
      · exact natChars_no_lb hm
      · exact hsl hm
    fin_cases hpfx
    · have htok : ([] : List Char) ++ natChars n ++ sfx = natChars n ++ sfx := by simp
      rw [htok, renderRichText_noBB g _ (hasBB_false_of_no_lb _
        (by
          intro hm
          simp only [List.mem_append] at hm
          rcases hm with hm | hm
          · exact natChars_no_lb hm
          · exact hsl hm)),
        dateSpans_posToken hp1]
    · have htok : (['A', 'D'] : List Char) ++ natChars n ++ sfx =
          'A' :: 'D' :: (natChars n ++ sfx) := by simp
      rw [htok, renderRichText_noBB g _ (hasBB_false_of_no_lb _
        (by
          intro hm
          simp only [List.mem_cons, List.mem_append] at hm
          rcases hm with hm | hm | hm | hm
          · exact absurd hm (by decide)
          · exact absurd hm (by decide)
          · exact natChars_no_lb hm
          · exact hsl hm)),
        dateSpans_posToken hp2]
    · have htok : (['A', 'D', ' '] : List Char) ++ natChars n ++ sfx =
          'A' :: 'D' :: ' ' :: (natChars n ++ sfx) := by simp
      rw [htok, renderRichText_noBB g _ (hasBB_false_of_no_lb _
        (by
          intro hm
          simp only [List.mem_cons, List.mem_append] at hm
          rcases hm with hm | hm | hm | hm | hm
          · exact absurd hm (by decide)
          · exact absurd hm (by decide)
          · exact absurd hm (by decide)
          · exact natChars_no_lb hm
          · exact hsl hm)),
        dateSpans_posToken hp3]
  · intro hout
    rw [renderRichText_noBB g _ (hasBB_false_of_no_lb _ (fun hm => natChars_no_lb hm))]
    by_cases hsmall : n < 10000
    · exact dateSpans_word_noMatch _ (fun c hc => digit_word (natChars_digits hc))
        (tryDate_small_none hsmall hout)
    · exact dateSpans_digits (fun c hc => natChars_digits hc)
        (natChars_len5 (by omega))

theorem c5_date_classification_witness :
    renderRichText none (['A', 'D', ' '] ++ natChars 1066 ++ ['s']) =
      [Span.text [], Span.date (['A', 'D', ' '] ++ natChars 1066 ++ ['s']),
       Span.text []]
    ∧ renderRichText none (natChars 100) = [Span.text (natChars 100)] :=
  ⟨(c5_date_classification none 1066).1 (by decide) (by decide)
      (['A', 'D', ' ']) (by decide) (['s']) (by decide),
   (c5_date_classification none 100).2 (Or.inl (by decide))⟩
